import Mathlib

/-!
Formal model of the autotyper human-like typing engine.

This file gives a shallow embedding, in Lean 4, of the delay-context
builder, the two delay strategies, the typo/correction state machine of
the character-by-character typing driver, and the session worker of
`typing_engine.py`, and proves the specification's claims about them.

Modelling conventions:
* Python strings are modelled as `List Char`; the empty string used for
  a missing previous/next character is modelled as `Option Char`.
* Python floats (delays, probabilities) are modelled as rationals.
* The seeded `random.Random` instance owned by a strategy is modelled by
  a concrete deterministic generator (`Rng`): like the source generator,
  every draw is a pure function of the seed and of the sequence of draws
  made so far, which is the property the claims depend on.
* The driver's `while True` loop is modelled fuel-indexed
  (`runFuel`): a result `some b` means the loop returned `b` within the
  given number of iterations.
* Stop and pause flags are never raised in the modelled runs, and sleeps
  always complete, so the model describes uninterrupted sessions; the
  strategy state is still threaded through every timing call in source
  order, because those calls advance the random generator.
-/

/-- One character of the flattened input stream, as built by
the source function with the same name (dataclass DelayContext). -/
structure DelayContext where
  char : Char
  line_text : List Char
  line_index : Nat
  col_index : Nat
  global_index : Nat
  prev_char : Option Char
  next_char : Option Char
deriving DecidableEq

/-- Placeholder context used only to totalize list indexing; all proved
statements index within bounds. -/
def defaultContext : DelayContext :=
  ⟨' ', [], 0, 0, 0, none, none⟩

/-- Python text.split with the newline separator: every newline splits,
the empty text yields one empty line. -/
def splitOnNl : List Char → List (List Char)
  | [] => [[]]
  | c :: rest =>
    if c = '\n' then [] :: splitOnNl rest
    else
      match splitOnNl rest with
      | [] => [[c]]
      | l :: ls => (c :: l) :: ls

/-- Join a list of lines with the newline separator (inverse of splitOnNl). -/
def joinLines : List (List Char) → List Char
  | [] => []
  | [l] => l
  | l :: l' :: ls => l ++ '\n' :: joinLines (l' :: ls)

theorem splitOnNl_ne_nil (t : List Char) : splitOnNl t ≠ [] := by
  induction t with
  | nil => simp [splitOnNl]
  | cons c rest ih =>
    simp only [splitOnNl]
    split
    · simp
    · match h : splitOnNl rest with
      | [] => simp
      | l :: ls => simp

theorem joinLines_splitOnNl (t : List Char) : joinLines (splitOnNl t) = t := by
  induction t with
  | nil => simp [splitOnNl, joinLines]
  | cons c rest ih =>
    simp only [splitOnNl]
    split
    · rename_i hc
      subst hc
      match h : splitOnNl rest with
      | [] => exact absurd h (splitOnNl_ne_nil rest)
      | l :: ls =>
        rw [h] at ih
        simp [joinLines, ← ih]
    · match h : splitOnNl rest with
      | [] => exact absurd h (splitOnNl_ne_nil rest)
      | l :: ls =>
        rw [h] at ih
        cases ls with
        | nil => simp [joinLines, ← ih]
        | cons l' ls' => simp [joinLines, ← ih]

/-- Inner loop of the context builder: contexts for the characters of one
line (the line's remaining suffix, with the running column index), together
with the previous-character and global-index values after the line. -/
def buildInner (li : Nat) (fullLine : List Char) (isLast : Bool) :
    List Char → Nat → Option Char → Nat → List DelayContext × Option Char × Nat
  | [], _ci, prev, gi => ([], prev, gi)
  | c :: rest, ci, prev, gi =>
    let nxt : Option Char :=
      match rest with
      | n :: _ => some n
      | [] => if isLast then none else some '\n'
    let ctx : DelayContext := ⟨c, fullLine, li, ci, gi, prev, nxt⟩
    let r := buildInner li fullLine isLast rest (ci + 1) (some c) (gi + 1)
    (ctx :: r.1, r.2.1, r.2.2)

/-- Outer loop of the context builder: one block of character contexts per
line, plus a synthetic newline context after every line but the last. -/
def buildOuter : List (List Char) → Nat → Option Char → Nat → List DelayContext
  | [], _, _, _ => []
  | [line], li, prev, gi => (buildInner li line true line 0 prev gi).1
  | line :: next :: rest, li, prev, gi =>
    let r := buildInner li line false line 0 prev gi
    let nlCtx : DelayContext := ⟨'\n', line, li, line.length, r.2.2, r.2.1, next.head?⟩
    r.1 ++ nlCtx :: buildOuter (next :: rest) (li + 1) (some '\n') (r.2.2 + 1)

/-- Source function _build_delay_contexts: per-character contexts for the
full text stream, plus the raw lines. -/
def build_delay_contexts (text : List Char) : List DelayContext × List (List Char) :=
  (buildOuter (splitOnNl text) 0 none 0, splitOnNl text)

theorem buildInner_spec (li : Nat) (fullLine : List Char) (isLast : Bool) :
    ∀ (suffix : List Char) (ci : Nat) (prev : Option Char) (gi : Nat),
      (buildInner li fullLine isLast suffix ci prev gi).1.map (·.char) = suffix ∧
      (buildInner li fullLine isLast suffix ci prev gi).1.map (·.global_index) =
        List.range' gi suffix.length ∧
      (buildInner li fullLine isLast suffix ci prev gi).2.2 = gi + suffix.length := by
  intro suffix
  induction suffix with
  | nil => intro ci prev gi; simp [buildInner]
  | cons c rest ih =>
    intro ci prev gi
    have h := ih (ci + 1) (some c) (gi + 1)
    simp only [buildInner, List.map_cons, List.length_cons]
    refine ⟨by simp [h.1], ?_, ?_⟩
    · rw [List.range'_succ]
      simp [h.2.1]
    · omega

theorem buildOuter_spec :
    ∀ (ls : List (List Char)) (li : Nat) (prev : Option Char) (gi : Nat),
      ls ≠ [] →
      (buildOuter ls li prev gi).map (·.char) = joinLines ls ∧
      (buildOuter ls li prev gi).map (·.global_index) =
        List.range' gi (joinLines ls).length := by
  intro ls
  induction ls with
  | nil => intro li prev gi h; exact absurd rfl h
  | cons line rest ih =>
    intro li prev gi _
    cases rest with
    | nil =>
      have h := buildInner_spec li line true line 0 prev gi
      simp [buildOuter, joinLines, h.1, h.2.1]
    | cons next rest' =>
      have h := buildInner_spec li line false line 0 prev gi
      have hih' := ih (li + 1) (some '\n') ((buildInner li line false line 0 prev gi).2.2 + 1)
        (by simp)
      constructor
      · simp only [buildOuter, List.map_append, List.map_cons, joinLines]
        rw [h.1, (hih'.1)]
      · simp only [buildOuter, List.map_append, List.map_cons, joinLines]
        rw [h.2.1, (hih'.2)]
        rw [h.2.2]
        have hlen : (line ++ '\n' :: joinLines (next :: rest')).length
            = line.length + (1 + (joinLines (next :: rest')).length) := by
          simp; omega
        rw [hlen]
        have hc : (gi + line.length) ::
              List.range' (gi + line.length + 1) (joinLines (next :: rest')).length
            = List.range' (gi + line.length) ((joinLines (next :: rest')).length + 1) := by
          rw [List.range'_succ]
        rw [hc, List.range'_append_1]
        congr 1
        omega

/-- CLAIM C1: for every input text, the context builder produces exactly
one context per character of the text (each line separator counting as one
character), the global_index fields are 0,1,2,... in order, and the char
fields concatenated in order reconstruct the input text exactly. -/
theorem context_builder_reconstructs_text (text : List Char) :
    (build_delay_contexts text).1.length = text.length ∧
    (build_delay_contexts text).1.map (·.char) = text ∧
    (build_delay_contexts text).1.map (·.global_index) = List.range text.length := by
  have h := buildOuter_spec (splitOnNl text) 0 none 0 (splitOnNl_ne_nil text)
  rw [joinLines_splitOnNl] at h
  refine ⟨?_, h.1, ?_⟩
  · have := congrArg List.length h.1
    simpa using this
  · rw [List.range_eq_range']
    exact h.2

/-- Source dataclass TypoEvent: one injected typo and its correction
progress.  The source field named with a leading underscore
(the in-progress word flag) is called currentWordHasChars here. -/
structure TypoEvent where
  original_char : Char
  typed_wrong_char : Char
  typo_index : Nat
  chars_typed_after_typo : Nat
  awareness_threshold_chars : Int
  awareness_threshold_words : Option Int
  words_typed_after_typo : Nat
  currentWordHasChars : Bool
deriving DecidableEq

/-- Source property TypoEvent.chars_to_backspace. -/
def TypoEvent.chars_to_backspace (e : TypoEvent) : Nat :=
  e.chars_typed_after_typo + 1

/-- Source function _is_word_char. -/
def is_word_char (ch : Char) : Bool :=
  ch.isAlphanum || ch = '_'

/-- Source function _track_words_after_typo (mutation modelled as
returning the updated event). -/
def track_words_after_typo (e : TypoEvent) (typedChar : Char) : TypoEvent :=
  if is_word_char typedChar then { e with currentWordHasChars := true }
  else if e.currentWordHasChars then
    { e with words_typed_after_typo := e.words_typed_after_typo + 1,
             currentWordHasChars := false }
  else e

/-- Source function _finalize_typo_word_count. -/
def finalize_typo_word_count (e : TypoEvent) : TypoEvent :=
  if e.currentWordHasChars then
    { e with words_typed_after_typo := e.words_typed_after_typo + 1,
             currentWordHasChars := false }
  else e

/-- The duck-typed delay-strategy interface consumed by the
char-by-char driver, with the per-instance mutable state (random
generator, burst counter) made explicit as a value of type sigma that
every call threads through. -/
structure Strategy (σ : Type) where
  get_delay : Char → DelayContext → σ → ℚ × σ
  build_typo_event : DelayContext → σ → Option TypoEvent × σ
  typo_notice_reached : TypoEvent → σ → Bool × σ
  correction_hesitation_delay : TypoEvent → List Char → σ → ℚ × σ
  maybe_double_hesitation_delay : σ → ℚ × σ
  backspace_delay : σ → ℚ × σ
  should_backspace_pause : Nat → Nat → σ → Bool × σ
  backspace_pause_delay : σ → ℚ × σ
  typo_cooldown_chars : σ → Int × σ

/-- Source enum TypingPhase. -/
inductive TypingPhase where
  | typingNormal
  | typoActiveUnnoticed
  | typoNoticedHesitating
  | correctingBackspace
  | correctingRetype
  | resumeNormal
deriving DecidableEq

/-- One emitted operation of the driver: a character handed to the
send callback (backspace is the send of the backspace character, as in
the source), or an invocation of the progress callback. -/
inductive Op where
  | send (ch : Char)
  | progress (lineIndex charIndex totalLines totalChars : Nat)
deriving DecidableEq

/-- Driver loop state for _type_char_by_char: position in the context
stream, state-machine phase, pending typo event, typo cooldown counter,
and the strategy's own state. -/
structure MState (σ : Type) where
  nextIndex : Nat
  phase : TypingPhase
  typoEvent : Option TypoEvent
  cooldown : Int
  strat : σ
deriving DecidableEq

/-- Result of one iteration of the driver's while-loop: the operations
emitted during the iteration, the typo event newly created by the
strategy in this iteration (the source's injected flag and
candidate_event), and either the next loop state or the returned value. -/
structure StepOut (σ : Type) where
  ops : List Op
  injected : Option TypoEvent
  next : MState σ ⊕ Bool

/-- The TYPING_NORMAL / TYPO_ACTIVE_UNNOTICED branch of the driver loop. -/
def stepEmit {σ : Type} (S : Strategy σ) (ctxs : List DelayContext)
    (tl tc : Nat) (s : MState σ) : StepOut σ :=
  if h : s.nextIndex < ctxs.length then
    let ctx := ctxs.get ⟨s.nextIndex, h⟩
    let built : Option TypoEvent × σ :=
      if s.phase = .typingNormal ∧ s.cooldown ≤ 0 then
        S.build_typo_event ctx s.strat
      else (none, s.strat)
    let cand := built.1
    let st₁ := built.2
    let emitChar := match cand with
      | some ev => ev.typed_wrong_char
      | none => ctx.char
    let phase₁ := if cand.isSome then TypingPhase.typoActiveUnnoticed else s.phase
    let cooldown₁ := if 0 < s.cooldown then s.cooldown - 1 else s.cooldown
    let post : TypingPhase × Option TypoEvent × σ :=
      match s.typoEvent, cand with
      | some e, none =>
        if s.phase = .typoActiveUnnoticed then
          let e₁ := track_words_after_typo
            { e with chars_typed_after_typo := e.chars_typed_after_typo + 1 } ctx.char
          let nr := S.typo_notice_reached e₁ st₁
          ((if nr.1 then TypingPhase.typoNoticedHesitating else phase₁), some e₁, nr.2)
        else (phase₁, some e, st₁)
      | old, c => (phase₁, (match c with | some ev => some ev | none => old), st₁)
    let d := S.get_delay ctx.char ctx post.2.2
    ⟨[.send emitChar, .progress ctx.line_index (s.nextIndex + 1) tl tc],
     cand,
     .inl ⟨s.nextIndex + 1, post.1, post.2.1, cooldown₁, d.2⟩⟩
  else
    match s.phase, s.typoEvent with
    | .typoActiveUnnoticed, some e =>
      ⟨[], none, .inl { s with phase := .typoNoticedHesitating,
                               typoEvent := some (finalize_typo_word_count e) }⟩
    | _, _ => ⟨[], none, .inr true⟩

/-- The TYPO_NOTICED_HESITATING branch of the driver loop. -/
def stepHesitate {σ : Type} (S : Strategy σ) (ctxs : List DelayContext)
    (s : MState σ) : StepOut σ :=
  match s.typoEvent with
  | none => ⟨[], none, .inl { s with phase := .resumeNormal }⟩
  | some e =>
    let referenceIndex :=
      if ctxs.isEmpty then 0 else min (s.nextIndex - 1) (ctxs.length - 1)
    let lineText :=
      if ctxs.isEmpty then []
      else ((ctxs[referenceIndex]?).getD defaultContext).line_text
    let h₁ := S.correction_hesitation_delay e lineText s.strat
    let h₂ := S.maybe_double_hesitation_delay h₁.2
    ⟨[], none, .inl { s with phase := .correctingBackspace, strat := h₂.2 }⟩

/-- The backspace for-loop of the CORRECTING_BACKSPACE branch: one
backspace send per remaining count, with the timing calls threaded in
source order. -/
def backspaceLoop {σ : Type} (S : Strategy σ) (total : Nat) :
    Nat → Nat → σ → List Op × σ
  | 0, _, st => ([], st)
  | n + 1, count, st =>
    let d := S.backspace_delay st
    let p := S.should_backspace_pause count total d.2
    let st₂ := if p.1 then (S.backspace_pause_delay p.2).2 else p.2
    let r := backspaceLoop S total n (count + 1) st₂
    (.send '\x08' :: r.1, r.2)

/-- The CORRECTING_BACKSPACE branch of the driver loop. -/
def stepBackspace {σ : Type} (S : Strategy σ) (s : MState σ) : StepOut σ :=
  match s.typoEvent with
  | none => ⟨[], none, .inl { s with phase := .resumeNormal }⟩
  | some e =>
    let toBackspace := s.nextIndex - e.typo_index
    let r := backspaceLoop S toBackspace toBackspace 1 s.strat
    ⟨r.1, none, .inl { s with phase := .correctingRetype, strat := r.2 }⟩

/-- The retype for-loop of the CORRECTING_RETYPE branch: re-send the
context characters from the typo index up to the stream position, with
get_delay threaded per character. -/
def retypeLoop {σ : Type} (S : Strategy σ) (ctxs : List DelayContext) :
    Nat → Nat → σ → List Op × σ
  | 0, _, st => ([], st)
  | n + 1, idx, st =>
    let ctx := (ctxs[idx]?).getD defaultContext
    let d := S.get_delay ctx.char ctx st
    let r := retypeLoop S ctxs n (idx + 1) d.2
    (.send ctx.char :: r.1, r.2)

/-- The CORRECTING_RETYPE branch of the driver loop. -/
def stepRetype {σ : Type} (S : Strategy σ) (ctxs : List DelayContext)
    (s : MState σ) : StepOut σ :=
  match s.typoEvent with
  | none => ⟨[], none, .inl { s with phase := .resumeNormal }⟩
  | some e =>
    let r := retypeLoop S ctxs (s.nextIndex - e.typo_index) e.typo_index s.strat
    let cd := S.typo_cooldown_chars r.2
    ⟨r.1, none, .inl { s with phase := .resumeNormal, cooldown := cd.1, strat := cd.2 }⟩

/-- One iteration of the driver's while-loop (_type_char_by_char), for a
run in which stop is never requested and pause is never engaged. -/
def step {σ : Type} (S : Strategy σ) (ctxs : List DelayContext) (tl tc : Nat)
    (s : MState σ) : StepOut σ :=
  match s.phase with
  | .typingNormal => stepEmit S ctxs tl tc s
  | .typoActiveUnnoticed => stepEmit S ctxs tl tc s
  | .typoNoticedHesitating => stepHesitate S ctxs s
  | .correctingBackspace => stepBackspace S s
  | .correctingRetype => stepRetype S ctxs s
  | .resumeNormal => ⟨[], none, .inl { s with typoEvent := none, phase := .typingNormal }⟩

/-- Fuel-indexed unfolding of the driver's while-loop; some b means the
loop returned b within the given number of iterations. -/
def runFuel {σ : Type} (S : Strategy σ) (ctxs : List DelayContext) (tl tc : Nat) :
    Nat → MState σ → List Op × Option Bool
  | 0, _ => ([], none)
  | fuel + 1, s =>
    let out := step S ctxs tl tc s
    match out.next with
    | .inr b => (out.ops, some b)
    | .inl s' =>
      let r := runFuel S ctxs tl tc fuel s'
      (out.ops ++ r.1, r.2)

/-- Initial driver state: stream position 0, TYPING_NORMAL, no pending
typo, cooldown 0. -/
def initState {σ : Type} (s0 : σ) : MState σ :=
  ⟨0, .typingNormal, none, 0, s0⟩

/-- Source function _type_char_by_char (entry): build the contexts, set
the totals from the raw lines and the text length, and run the loop. -/
def type_char_by_char {σ : Type} (S : Strategy σ) (text : List Char) (s0 : σ)
    (fuel : Nat) : List Op × Option Bool :=
  let b := build_delay_contexts text
  runFuel S b.1 b.2.length text.length fuel (initState s0)

/-- Effect of one emitted operation on the target's visible buffer: a
backspace send erases the last visible character, any other send appends
it, a progress call changes nothing. -/
def applyOp (v : List Char) : Op → List Char
  | .send c => if c = '\x08' then v.dropLast else v ++ [c]
  | .progress _ _ _ _ => v

/-- Visible buffer after a sequence of emitted operations. -/
def applyOps (v : List Char) (ops : List Op) : List Char :=
  ops.foldl applyOp v

theorem applyOps_nil (v : List Char) : applyOps v [] = v := rfl

theorem applyOps_cons (v : List Char) (o : Op) (ops : List Op) :
    applyOps v (o :: ops) = applyOps (applyOp v o) ops := rfl

theorem applyOps_append (v : List Char) (o₁ o₂ : List Op) :
    applyOps v (o₁ ++ o₂) = applyOps (applyOps v o₁) o₂ :=
  List.foldl_append ..

theorem applyOps_replicate_backspace :
    ∀ (k : Nat) (v : List Char),
      applyOps v (List.replicate k (Op.send '\x08')) = v.take (v.length - k) := by
  intro k
  induction k with
  | zero => intro v; simp [applyOps]
  | succ k ih =>
    intro v
    rw [List.replicate_succ, applyOps_cons]
    have hb : applyOp v (Op.send '\x08') = v.dropLast := by simp [applyOp]
    rw [hb, ih, List.length_dropLast, List.dropLast_eq_take, List.take_take]
    congr 1
    omega

theorem applyOps_sends :
    ∀ (cs v : List Char), (∀ c ∈ cs, c ≠ '\x08') →
      applyOps v (cs.map Op.send) = v ++ cs := by
  intro cs
  induction cs with
  | nil => intro v _; simp [applyOps]
  | cons c cs ih =>
    intro v h
    rw [List.map_cons, applyOps_cons]
    have hc : applyOp v (Op.send c) = v ++ [c] := by
      simp [applyOp, h c (by simp)]
    rw [hc, ih (v ++ [c]) (fun c' hc' => h c' (by simp [hc']))]
    simp

theorem take_set_of_le {α : Type} (l : List α) (a : α) {m n : Nat} (h : m ≤ n) :
    (l.set n a).take m = l.take m := by
  induction l generalizing m n with
  | nil => simp
  | cons x xs ih =>
    cases n with
    | zero =>
      have : m = 0 := Nat.le_zero.mp h
      simp [this]
    | succ n =>
      cases m with
      | zero => simp
      | succ m => simp [List.set_cons_succ, ih (Nat.le_of_succ_le_succ h)]

/-- Helper facts about the built context stream, shared by the driver
invariant proofs: chars, lengths and global indices. -/
theorem ctxs_map_char (text : List Char) :
    (build_delay_contexts text).1.map (·.char) = text := by
  have h := buildOuter_spec (splitOnNl text) 0 none 0 (splitOnNl_ne_nil text)
  rw [joinLines_splitOnNl] at h
  exact h.1

theorem ctxs_length (text : List Char) :
    (build_delay_contexts text).1.length = text.length := by
  have := congrArg List.length (ctxs_map_char text)
  simpa using this

theorem ctxs_map_global (text : List Char) :
    (build_delay_contexts text).1.map (·.global_index) = List.range text.length := by
  have h := buildOuter_spec (splitOnNl text) 0 none 0 (splitOnNl_ne_nil text)
  rw [joinLines_splitOnNl] at h
  rw [List.range_eq_range']
  exact h.2

theorem ctxs_get_char (text : List Char) (n : Nat)
    (h : n < (build_delay_contexts text).1.length) :
    ((build_delay_contexts text).1.get ⟨n, h⟩).char
      = text.get ⟨n, by rw [← ctxs_length text]; exact h⟩ := by
  have h' : n < text.length := by rw [← ctxs_length text]; exact h
  have h2 : ((build_delay_contexts text).1.map (·.char))[n]?
      = ((build_delay_contexts text).1[n]?).map (·.char) := by
    simp
  rw [ctxs_map_char text] at h2
  rw [List.getElem?_eq_getElem h', List.getElem?_eq_getElem h] at h2
  simp only [Option.map_some'] at h2
  simp only [List.get_eq_getElem]
  exact (Option.some.injEq _ _).mp h2.symm

theorem ctxs_get_global (text : List Char) (n : Nat)
    (h : n < (build_delay_contexts text).1.length) :
    ((build_delay_contexts text).1.get ⟨n, h⟩).global_index = n := by
  have h' : n < text.length := by rw [← ctxs_length text]; exact h
  have h2 : ((build_delay_contexts text).1.map (·.global_index))[n]?
      = ((build_delay_contexts text).1[n]?).map (·.global_index) := by
    simp
  rw [ctxs_map_global text] at h2
  rw [List.getElem?_eq_getElem (by simpa using h'), List.getElem?_eq_getElem h] at h2
  simp only [Option.map_some', List.getElem_range] at h2
  simp only [List.get_eq_getElem]
  exact (Option.some.injEq _ _).mp h2.symm

/-- The visible buffer while an injected typo is pending: the true
prefix with the character at the typo's index replaced by the wrong
character actually sent. -/
def corrupted (text : List Char) (n : Nat) (e : TypoEvent) : List Char :=
  (text.take n).set e.typo_index e.typed_wrong_char

/-- Driver invariant, relating the loop state to the visible buffer
produced by the operations emitted so far.  In TYPING_NORMAL the buffer
is exactly the typed prefix of the text; while a typo is pending
(unnoticed / hesitating / backspacing) it is the prefix corrupted at the
typo index; after the backspaces (retype phase) it is the prefix up to
the typo index; when a correction has completed (RESUME_NORMAL) it is
again exactly the typed prefix. -/
def DriverInv {σ : Type} (text : List Char) (s : MState σ) (v : List Char) : Prop :=
  s.nextIndex ≤ text.length ∧
  match s.phase, s.typoEvent with
  | .typingNormal, ev => ev = none ∧ v = text.take s.nextIndex
  | .typoActiveUnnoticed, some e =>
      e.typo_index < s.nextIndex ∧ e.typed_wrong_char ≠ '\x08' ∧
      v = corrupted text s.nextIndex e
  | .typoActiveUnnoticed, none => False
  | .typoNoticedHesitating, some e =>
      e.typo_index < s.nextIndex ∧ e.typed_wrong_char ≠ '\x08' ∧
      v = corrupted text s.nextIndex e
  | .typoNoticedHesitating, none => False
  | .correctingBackspace, some e =>
      e.typo_index < s.nextIndex ∧ e.typed_wrong_char ≠ '\x08' ∧
      v = corrupted text s.nextIndex e
  | .correctingBackspace, none => False
  | .correctingRetype, some e =>
      e.typo_index ≤ s.nextIndex ∧ v = text.take e.typo_index
  | .correctingRetype, none => False
  | .resumeNormal, _ => v = text.take s.nextIndex

theorem inv_init {σ : Type} (text : List Char) (s0 : σ) :
    DriverInv text (initState s0) ([] : List Char) := by
  exact ⟨Nat.zero_le _, rfl, by simp [initState]⟩

theorem track_words_preserves (e : TypoEvent) (c : Char) :
    (track_words_after_typo e c).typo_index = e.typo_index ∧
    (track_words_after_typo e c).typed_wrong_char = e.typed_wrong_char ∧
    (track_words_after_typo e c).original_char = e.original_char := by
  unfold track_words_after_typo
  split_ifs <;> simp

theorem finalize_preserves (e : TypoEvent) :
    (finalize_typo_word_count e).typo_index = e.typo_index ∧
    (finalize_typo_word_count e).typed_wrong_char = e.typed_wrong_char ∧
    (finalize_typo_word_count e).original_char = e.original_char := by
  unfold finalize_typo_word_count
  split_ifs <;> simp

theorem backspaceLoop_ops {σ : Type} (S : Strategy σ) (total : Nat) :
    ∀ (n count : Nat) (st : σ),
      (backspaceLoop S total n count st).1 = List.replicate n (Op.send '\x08') := by
  intro n
  induction n with
  | zero => intro count st; rfl
  | succ n ih =>
    intro count st
    simp only [backspaceLoop, List.replicate_succ, List.cons.injEq, true_and]
    exact ih ..

theorem retypeLoop_ops {σ : Type} (S : Strategy σ) (ctxs : List DelayContext) :
    ∀ (n idx : Nat) (st : σ), idx + n ≤ ctxs.length →
      (retypeLoop S ctxs n idx st).1
        = ((ctxs.drop idx).take n).map (fun c => Op.send c.char) := by
  intro n
  induction n with
  | zero => intro idx st _; simp [retypeLoop]
  | succ n ih =>
    intro idx st h
    have hidx : idx < ctxs.length := by omega
    have hdrop : ctxs.drop idx = ctxs.get ⟨idx, hidx⟩ :: ctxs.drop (idx + 1) := by
      rw [List.drop_eq_getElem_cons hidx]
      rfl
    have hget : ctxs[idx]? = some (ctxs.get ⟨idx, hidx⟩) := by
      rw [List.getElem?_eq_getElem hidx]
      rfl
    simp only [retypeLoop, hget, Option.getD_some, hdrop, List.take_succ_cons,
      List.map_cons, List.cons.injEq, true_and]
    exact ih (idx + 1) _ (by omega)

theorem step_resume {σ : Type} (S : Strategy σ) (ctxs : List DelayContext)
    (tl tc n : Nat) (ev : Option TypoEvent) (cd : Int) (st : σ) :
    step S ctxs tl tc ⟨n, .resumeNormal, ev, cd, st⟩
      = ⟨[], none, .inl ⟨n, .typingNormal, none, cd, st⟩⟩ := rfl

theorem step_hesitate_none {σ : Type} (S : Strategy σ) (ctxs : List DelayContext)
    (tl tc n : Nat) (cd : Int) (st : σ) :
    step S ctxs tl tc ⟨n, .typoNoticedHesitating, none, cd, st⟩
      = ⟨[], none, .inl ⟨n, .resumeNormal, none, cd, st⟩⟩ := rfl

theorem step_hesitate_some {σ : Type} (S : Strategy σ) (ctxs : List DelayContext)
    (tl tc n : Nat) (e : TypoEvent) (cd : Int) (st : σ) :
    ∃ st' : σ,
      step S ctxs tl tc ⟨n, .typoNoticedHesitating, some e, cd, st⟩
        = ⟨[], none, .inl ⟨n, .correctingBackspace, some e, cd, st'⟩⟩ :=
  ⟨_, rfl⟩

theorem step_backspace_some {σ : Type} (S : Strategy σ) (ctxs : List DelayContext)
    (tl tc n : Nat) (e : TypoEvent) (cd : Int) (st : σ) :
    step S ctxs tl tc ⟨n, .correctingBackspace, some e, cd, st⟩
      = ⟨List.replicate (n - e.typo_index) (Op.send '\x08'), none,
         .inl ⟨n, .correctingRetype, some e, cd,
               (backspaceLoop S (n - e.typo_index) (n - e.typo_index) 1 st).2⟩⟩ := by
  have h := backspaceLoop_ops S (n - e.typo_index) (n - e.typo_index) 1 st
  show StepOut.mk (backspaceLoop S (n - e.typo_index) (n - e.typo_index) 1 st).1 none _ = _
  rw [h]

theorem step_retype_some {σ : Type} (S : Strategy σ) (ctxs : List DelayContext)
    (tl tc n : Nat) (e : TypoEvent) (cd : Int) (st : σ)
    (h1 : e.typo_index ≤ n) (h2 : n ≤ ctxs.length) :
    step S ctxs tl tc ⟨n, .correctingRetype, some e, cd, st⟩
      = ⟨((ctxs.drop e.typo_index).take (n - e.typo_index)).map (fun c => Op.send c.char),
         none,
         .inl ⟨n, .resumeNormal, some e,
               (S.typo_cooldown_chars (retypeLoop S ctxs (n - e.typo_index) e.typo_index st).2).1,
               (S.typo_cooldown_chars (retypeLoop S ctxs (n - e.typo_index) e.typo_index st).2).2⟩⟩ := by
  have h := retypeLoop_ops S ctxs (n - e.typo_index) e.typo_index st (by omega)
  show StepOut.mk (retypeLoop S ctxs (n - e.typo_index) e.typo_index st).1 none _ = _
  rw [h]

theorem step_emit_exhausted_unnoticed {σ : Type} (S : Strategy σ)
    (ctxs : List DelayContext) (tl tc n : Nat) (e : TypoEvent) (cd : Int) (st : σ)
    (h : ctxs.length ≤ n) :
    step S ctxs tl tc ⟨n, .typoActiveUnnoticed, some e, cd, st⟩
      = ⟨[], none, .inl ⟨n, .typoNoticedHesitating,
                         some (finalize_typo_word_count e), cd, st⟩⟩ := by
  show stepEmit S ctxs tl tc ⟨n, .typoActiveUnnoticed, some e, cd, st⟩ = _
  rw [stepEmit, dif_neg (by simp; omega)]

theorem step_emit_exhausted_normal {σ : Type} (S : Strategy σ)
    (ctxs : List DelayContext) (tl tc n : Nat) (ev : Option TypoEvent) (cd : Int) (st : σ)
    (h : ctxs.length ≤ n) :
    step S ctxs tl tc ⟨n, .typingNormal, ev, cd, st⟩ = ⟨[], none, .inr true⟩ := by
  show stepEmit S ctxs tl tc ⟨n, .typingNormal, ev, cd, st⟩ = _
  rw [stepEmit, dif_neg (by simp; omega)]

theorem step_emit_normal_skip {σ : Type} (S : Strategy σ) (ctxs : List DelayContext)
    (tl tc n : Nat) (cd : Int) (st : σ) (h0 : n < ctxs.length) (hcd : 0 < cd) :
    step S ctxs tl tc ⟨n, .typingNormal, none, cd, st⟩
      = ⟨[.send (ctxs.get ⟨n, h0⟩).char,
          .progress (ctxs.get ⟨n, h0⟩).line_index (n + 1) tl tc],
         none,
         .inl ⟨n + 1, .typingNormal, none, cd - 1,
               (S.get_delay (ctxs.get ⟨n, h0⟩).char (ctxs.get ⟨n, h0⟩) st).2⟩⟩ := by
  show stepEmit S ctxs tl tc ⟨n, .typingNormal, none, cd, st⟩ = _
  rw [stepEmit, dif_pos h0]
  have hcdle : ¬cd ≤ 0 := by omega
  simp [hcdle, hcd]

theorem step_emit_normal_nobuild {σ : Type} (S : Strategy σ) (ctxs : List DelayContext)
    (tl tc n : Nat) (cd : Int) (st st₁ : σ) (h0 : n < ctxs.length) (hcd : cd ≤ 0)
    (hbuild : S.build_typo_event (ctxs.get ⟨n, h0⟩) st = (none, st₁)) :
    step S ctxs tl tc ⟨n, .typingNormal, none, cd, st⟩
      = ⟨[.send (ctxs.get ⟨n, h0⟩).char,
          .progress (ctxs.get ⟨n, h0⟩).line_index (n + 1) tl tc],
         none,
         .inl ⟨n + 1, .typingNormal, none, cd,
               (S.get_delay (ctxs.get ⟨n, h0⟩).char (ctxs.get ⟨n, h0⟩) st₁).2⟩⟩ := by
  show stepEmit S ctxs tl tc ⟨n, .typingNormal, none, cd, st⟩ = _
  rw [stepEmit, dif_pos h0]
  have hcd' : ¬(0 : Int) < cd := by omega
  rw [List.get_eq_getElem] at hbuild
  simp [hcd, hbuild, hcd']

theorem step_emit_normal_inject {σ : Type} (S : Strategy σ) (ctxs : List DelayContext)
    (tl tc n : Nat) (cd : Int) (st st₁ : σ) (e : TypoEvent) (h0 : n < ctxs.length)
    (hcd : cd ≤ 0)
    (hbuild : S.build_typo_event (ctxs.get ⟨n, h0⟩) st = (some e, st₁)) :
    step S ctxs tl tc ⟨n, .typingNormal, none, cd, st⟩
      = ⟨[.send e.typed_wrong_char,
          .progress (ctxs.get ⟨n, h0⟩).line_index (n + 1) tl tc],
         some e,
         .inl ⟨n + 1, .typoActiveUnnoticed, some e, cd,
               (S.get_delay (ctxs.get ⟨n, h0⟩).char (ctxs.get ⟨n, h0⟩) st₁).2⟩⟩ := by
  show stepEmit S ctxs tl tc ⟨n, .typingNormal, none, cd, st⟩ = _
  rw [stepEmit, dif_pos h0]
  have hcd' : ¬(0 : Int) < cd := by omega
  rw [List.get_eq_getElem] at hbuild
  simp [hcd, hbuild, hcd']

/-- Abbreviation for the event update performed while a typo is active
and unnoticed: bump the post-typo character count and track words. -/
def bumpEvent (e : TypoEvent) (c : Char) : TypoEvent :=
  track_words_after_typo
    { e with chars_typed_after_typo := e.chars_typed_after_typo + 1 } c

theorem bumpEvent_preserves (e : TypoEvent) (c : Char) :
    (bumpEvent e c).typo_index = e.typo_index ∧
    (bumpEvent e c).typed_wrong_char = e.typed_wrong_char ∧
    (bumpEvent e c).original_char = e.original_char := by
  unfold bumpEvent track_words_after_typo
  split_ifs <;> simp

theorem step_emit_unnoticed_consume {σ : Type} (S : Strategy σ) (ctxs : List DelayContext)
    (tl tc n : Nat) (cd : Int) (st : σ) (e : TypoEvent) (h0 : n < ctxs.length) :
    step S ctxs tl tc ⟨n, .typoActiveUnnoticed, some e, cd, st⟩
      = ⟨[.send (ctxs.get ⟨n, h0⟩).char,
          .progress (ctxs.get ⟨n, h0⟩).line_index (n + 1) tl tc],
         none,
         .inl ⟨n + 1,
               (if (S.typo_notice_reached (bumpEvent e (ctxs.get ⟨n, h0⟩).char) st).1
                then .typoNoticedHesitating else .typoActiveUnnoticed),
               some (bumpEvent e (ctxs.get ⟨n, h0⟩).char),
               (if 0 < cd then cd - 1 else cd),
               (S.get_delay (ctxs.get ⟨n, h0⟩).char (ctxs.get ⟨n, h0⟩)
                 (S.typo_notice_reached (bumpEvent e (ctxs.get ⟨n, h0⟩).char) st).2).2⟩⟩ := by
  show stepEmit S ctxs tl tc ⟨n, .typoActiveUnnoticed, some e, cd, st⟩ = _
  rw [stepEmit, dif_pos h0]
  simp [bumpEvent]


theorem applyOp_send_ne (v : List Char) (c : Char) (hc : c ≠ '\x08') :
    applyOp v (Op.send c) = v ++ [c] := by
  simp [applyOp, hc]

theorem applyOp_progress (v : List Char) (li ci tl tc : Nat) :
    applyOp v (Op.progress li ci tl tc) = v := rfl

theorem take_succ_of_lt (text : List Char) (n : Nat) (hn : n < text.length) :
    text.take (n + 1) = text.take n ++ [text.get ⟨n, hn⟩] := by
  have hg : text[n]? = some (text.get ⟨n, hn⟩) := by
    rw [List.getElem?_eq_getElem hn]
    rfl
  rw [List.take_succ, hg]
  rfl

theorem inv_step {σ : Type} (text : List Char) (hbs : '\x08' ∉ text) (S : Strategy σ)
    (Hb : ∀ (ctx : DelayContext) (st : σ) (e : TypoEvent) (st' : σ),
        S.build_typo_event ctx st = (some e, st') →
        e.typo_index = ctx.global_index ∧ e.typed_wrong_char ≠ '\x08')
    (tl tc : Nat) (s : MState σ) (v : List Char)
    (hInv : DriverInv text s v)
    (ops : List Op) (inj : Option TypoEvent) (s' : MState σ)
    (h : step S (build_delay_contexts text).1 tl tc s = ⟨ops, inj, .inl s'⟩) :
    DriverInv text s' (applyOps v ops) := by
  obtain ⟨n, ph, ev, cd, st⟩ := s
  obtain ⟨hn0, hph⟩ := hInv
  have hn : n ≤ text.length := hn0
  have hlen := ctxs_length text
  cases ph with
  | resumeNormal =>
    rw [step_resume] at h
    injection h with h1 h2 h3
    subst h1
    injection h3 with h4
    subst h4
    have hv : v = text.take n := hph
    exact ⟨hn, rfl, hv⟩
  | typoNoticedHesitating =>
    cases ev with
    | none => exact hph.elim
    | some e =>
      obtain ⟨stB, hstep⟩ :=
        step_hesitate_some S (build_delay_contexts text).1 tl tc n e cd st
      rw [hstep] at h
      injection h with h1 h2 h3
      subst h1
      injection h3 with h4
      subst h4
      have hph' : e.typo_index < n ∧ e.typed_wrong_char ≠ '\x08' ∧
          v = corrupted text n e := hph
      exact ⟨hn, hph'⟩
  | correctingBackspace =>
    cases ev with
    | none => exact hph.elim
    | some e =>
      rw [step_backspace_some] at h
      injection h with h1 h2 h3
      subst h1
      injection h3 with h4
      subst h4
      obtain ⟨hi0, hw0, hv0⟩ := hph
      have hi : e.typo_index < n := hi0
      have hv : v = corrupted text n e := hv0
      refine ⟨hn, hi.le, ?_⟩
      show applyOps v (List.replicate (n - e.typo_index) (Op.send '\x08'))
          = text.take e.typo_index
      rw [applyOps_replicate_backspace]
      have hvl : v.length = n := by
        rw [hv, corrupted, List.length_set, List.length_take]
        omega
      rw [hvl]
      have hsub : n - (n - e.typo_index) = e.typo_index := by omega
      rw [hsub, hv, corrupted, take_set_of_le _ _ (le_refl _), List.take_take]
      congr 1
      omega
  | correctingRetype =>
    cases ev with
    | none => exact hph.elim
    | some e =>
      obtain ⟨hi0, hv0⟩ := hph
      have hi : e.typo_index ≤ n := hi0
      have hv : v = text.take e.typo_index := hv0
      rw [step_retype_some S _ tl tc n e cd st hi (by omega)] at h
      injection h with h1 h2 h3
      subst h1
      injection h3 with h4
      subst h4
      refine ⟨hn, ?_⟩
      show applyOps v
          ((((build_delay_contexts text).1.drop e.typo_index).take (n - e.typo_index)).map
            (fun c => Op.send c.char))
          = text.take n
      have hchars :
          ((((build_delay_contexts text).1.drop e.typo_index).take (n - e.typo_index)).map
            (·.char))
          = (text.drop e.typo_index).take (n - e.typo_index) := by
        rw [List.map_take, List.map_drop, ctxs_map_char]
      have hops :
          ((((build_delay_contexts text).1.drop e.typo_index).take (n - e.typo_index)).map
            (fun c => Op.send c.char))
          = ((text.drop e.typo_index).take (n - e.typo_index)).map Op.send := by
        rw [← hchars, List.map_map]
        rfl
      have hmem : ∀ c ∈ (text.drop e.typo_index).take (n - e.typo_index), c ≠ '\x08' := by
        intro c hc hceq
        exact hbs (hceq ▸ List.mem_of_mem_drop (List.mem_of_mem_take hc))
      rw [hops, applyOps_sends _ _ hmem, hv]
      have hsplit : n = e.typo_index + (n - e.typo_index) := by omega
      conv_rhs => rw [hsplit, List.take_add]
  | typingNormal =>
    obtain ⟨hev, hv0⟩ := hph
    have hv : v = text.take n := hv0
    subst hev
    by_cases h0 : n < (build_delay_contexts text).1.length
    · have hn1 : n < text.length := by omega
      have hcn : ((build_delay_contexts text).1.get ⟨n, h0⟩).char
          = text.get ⟨n, hn1⟩ := ctxs_get_char text n h0
      have hmemc : text.get ⟨n, hn1⟩ ∈ text := List.get_mem ..
      have hcb : ((build_delay_contexts text).1.get ⟨n, h0⟩).char ≠ '\x08' := by
        rw [hcn]
        intro hx
        exact hbs (hx ▸ hmemc)
      have htake : text.take (n + 1)
          = text.take n ++ [((build_delay_contexts text).1.get ⟨n, h0⟩).char] := by
        rw [hcn]
        exact take_succ_of_lt text n hn1
      by_cases hcd : cd ≤ 0
      · rcases hbuild : S.build_typo_event ((build_delay_contexts text).1.get ⟨n, h0⟩) st
          with ⟨cand, st₁⟩
        cases cand with
        | none =>
          rw [step_emit_normal_nobuild S _ tl tc n cd st st₁ h0 hcd hbuild] at h
          injection h with h1 h2 h3
          subst h1
          injection h3 with h4
          subst h4
          refine ⟨?_, rfl, ?_⟩
          · show n + 1 ≤ text.length
            omega
          · show applyOps v _ = text.take (n + 1)
            rw [applyOps_cons, applyOps_cons, applyOps_nil,
              applyOp_send_ne _ _ hcb, applyOp_progress, hv, htake]
        | some eNew =>
          have hbe := Hb _ _ _ _ hbuild
          have hgi := ctxs_get_global text n h0
          have hti : eNew.typo_index = n := by rw [hbe.1, hgi]
          rw [step_emit_normal_inject S _ tl tc n cd st st₁ eNew h0 hcd hbuild] at h
          injection h with h1 h2 h3
          subst h1
          injection h3 with h4
          subst h4
          refine ⟨?_, ?_, hbe.2, ?_⟩
          · show n + 1 ≤ text.length
            omega
          · show eNew.typo_index < n + 1
            omega
          show applyOps v _ = corrupted text (n + 1) eNew
          rw [applyOps_cons, applyOps_cons, applyOps_nil,
            applyOp_send_ne _ _ hbe.2, applyOp_progress, hv, corrupted, htake, hti]
          have hsl : (text.take n).length ≤ n := by
            rw [List.length_take]
            omega
          rw [List.set_append_right _ _ hsl]
          have hz : n - (text.take n).length = 0 := by
            rw [List.length_take]
            omega
          rw [hz]
          rfl
      · rw [step_emit_normal_skip S _ tl tc n cd st h0 (by omega)] at h
        injection h with h1 h2 h3
        subst h1
        injection h3 with h4
        subst h4
        refine ⟨?_, rfl, ?_⟩
        · show n + 1 ≤ text.length
          omega
        · show applyOps v _ = text.take (n + 1)
          rw [applyOps_cons, applyOps_cons, applyOps_nil,
            applyOp_send_ne _ _ hcb, applyOp_progress, hv, htake]
    · rw [step_emit_exhausted_normal S _ tl tc n none cd st (by omega)] at h
      injection h with h1 h2 h3
      cases h3
  | typoActiveUnnoticed =>
    cases ev with
    | none => exact hph.elim
    | some e =>
      obtain ⟨hi0, hw0, hv0⟩ := hph
      have hi : e.typo_index < n := hi0
      have hw : e.typed_wrong_char ≠ '\x08' := hw0
      have hv : v = corrupted text n e := hv0
      by_cases h0 : n < (build_delay_contexts text).1.length
      · have hn1 : n < text.length := by omega
        have hcn : ((build_delay_contexts text).1.get ⟨n, h0⟩).char
            = text.get ⟨n, hn1⟩ := ctxs_get_char text n h0
        have hmemc : text.get ⟨n, hn1⟩ ∈ text := List.get_mem ..
        have hcb : ((build_delay_contexts text).1.get ⟨n, h0⟩).char ≠ '\x08' := by
          rw [hcn]
          intro hx
          exact hbs (hx ▸ hmemc)
        have htake : text.take (n + 1)
            = text.take n ++ [((build_delay_contexts text).1.get ⟨n, h0⟩).char] := by
          rw [hcn]
          exact take_succ_of_lt text n hn1
        rw [step_emit_unnoticed_consume S _ tl tc n cd st e h0] at h
        injection h with h1 h2 h3
        subst h1
        injection h3 with h4
        subst h4
        have hbp := bumpEvent_preserves e ((build_delay_contexts text).1.get ⟨n, h0⟩).char
        have hvis : applyOps v
            [Op.send ((build_delay_contexts text).1.get ⟨n, h0⟩).char,
             Op.progress ((build_delay_contexts text).1.get ⟨n, h0⟩).line_index (n + 1) tl tc]
            = corrupted text (n + 1)
                (bumpEvent e ((build_delay_contexts text).1.get ⟨n, h0⟩).char) := by
          rw [applyOps_cons, applyOps_cons, applyOps_nil,
            applyOp_send_ne _ _ hcb, applyOp_progress, hv, corrupted, corrupted,
            hbp.1, hbp.2.1, htake]
          have hil : e.typo_index < (text.take n).length := by
            rw [List.length_take]
            omega
          rw [List.set_append_left _ _ hil]
        cases hnr : (S.typo_notice_reached
            (bumpEvent e ((build_delay_contexts text).1.get ⟨n, h0⟩).char) st).1 with
        | false =>
          simp only [hnr, Bool.false_eq_true, if_false]
          refine ⟨?_, ?_, ?_, hvis⟩
          · show n + 1 ≤ text.length
            omega
          · show (bumpEvent e _).typo_index < n + 1
            rw [hbp.1]
            omega
          · show (bumpEvent e _).typed_wrong_char ≠ '\x08'
            rw [hbp.2.1]
            exact hw
        | true =>
          simp only [hnr, if_true]
          refine ⟨?_, ?_, ?_, hvis⟩
          · show n + 1 ≤ text.length
            omega
          · show (bumpEvent e _).typo_index < n + 1
            rw [hbp.1]
            omega
          · show (bumpEvent e _).typed_wrong_char ≠ '\x08'
            rw [hbp.2.1]
            exact hw
      · rw [step_emit_exhausted_unnoticed S _ tl tc n e cd st (by omega)] at h
        injection h with h1 h2 h3
        subst h1
        injection h3 with h4
        subst h4
        have hfp := finalize_preserves e
        refine ⟨hn, ?_, ?_, ?_⟩
        · show (finalize_typo_word_count e).typo_index < n
          rw [hfp.1]
          exact hi
        · show (finalize_typo_word_count e).typed_wrong_char ≠ '\x08'
          rw [hfp.2.1]
          exact hw
        · show applyOps v [] = corrupted text n (finalize_typo_word_count e)
          rw [applyOps_nil, hv, corrupted, corrupted, hfp.1, hfp.2.1]

/-- Source class FixedDelayStrategy (classic constant-delay mode); the
constructor clamps both delays at zero as in the source __init__. -/
structure FixedDelayStrategy where
  char_delay_s : ℚ
  line_delay_s : ℚ

/-- Source __init__ of FixedDelayStrategy. -/
def FixedDelayStrategy.init (char_delay_s line_delay_s : ℚ) : FixedDelayStrategy :=
  ⟨max 0 char_delay_s, max 0 line_delay_s⟩

/-- Source FixedDelayStrategy.get_delay (the unused char and state
parameters of the source signature are dropped apart from the char). -/
def FixedDelayStrategy.get_delay (s : FixedDelayStrategy) (_char : Char)
    (context : DelayContext) : ℚ :=
  if context.char = '\n' then s.line_delay_s else s.char_delay_s

/-- Source FixedDelayStrategy.build_typo_event: always none. -/
def FixedDelayStrategy.build_typo_event (_s : FixedDelayStrategy)
    (_context : DelayContext) : Option TypoEvent := none

def FixedDelayStrategy.typo_notice_reached (_s : FixedDelayStrategy)
    (_e : TypoEvent) : Bool := false

def FixedDelayStrategy.correction_hesitation_delay (_s : FixedDelayStrategy)
    (_e : TypoEvent) (_line : List Char) : ℚ := 0

def FixedDelayStrategy.maybe_double_hesitation_delay (_s : FixedDelayStrategy) : ℚ := 0

def FixedDelayStrategy.backspace_delay (_s : FixedDelayStrategy) : ℚ := 0

def FixedDelayStrategy.should_backspace_pause (_s : FixedDelayStrategy)
    (_done _total : Nat) : Bool := false

def FixedDelayStrategy.backspace_pause_delay (_s : FixedDelayStrategy) : ℚ := 0

def FixedDelayStrategy.typo_cooldown_chars (_s : FixedDelayStrategy) : Int := 0

/-- The fixed strategy packaged for the driver: it has no mutable state,
so its state type is Unit. -/
def FixedDelayStrategy.toStrategy (s : FixedDelayStrategy) : Strategy Unit :=
  ⟨fun ch ctx u => (s.get_delay ch ctx, u),
   fun ctx u => (s.build_typo_event ctx, u),
   fun e u => (s.typo_notice_reached e, u),
   fun e line u => (s.correction_hesitation_delay e line, u),
   fun u => (s.maybe_double_hesitation_delay, u),
   fun u => (s.backspace_delay, u),
   fun d t u => (s.should_backspace_pause d t, u),
   fun u => (s.backspace_pause_delay, u),
   fun u => (s.typo_cooldown_chars, u)⟩

/-- CLAIM C4: for every DelayContext, FixedDelayStrategy.build_typo_event
returns nothing, and get_delay returns exactly the configured line-delay
when the character is the line separator and exactly the configured
char-delay otherwise (delays are clamped at zero by __init__, so the
configured values are reproduced exactly whenever they are nonnegative). -/
theorem fixed_strategy_contract (cd ld : ℚ) (hcd : 0 ≤ cd) (hld : 0 ≤ ld)
    (ctx : DelayContext) :
    (FixedDelayStrategy.init cd ld).build_typo_event ctx = none ∧
    (ctx.char = '\n' → (FixedDelayStrategy.init cd ld).get_delay ctx.char ctx = ld) ∧
    (ctx.char ≠ '\n' → (FixedDelayStrategy.init cd ld).get_delay ctx.char ctx = cd) := by
  refine ⟨rfl, ?_, ?_⟩
  · intro h
    simp [FixedDelayStrategy.init, FixedDelayStrategy.get_delay, h, max_eq_right hld]
  · intro h
    simp [FixedDelayStrategy.init, FixedDelayStrategy.get_delay, h, max_eq_right hcd]

/-- Witness for C4 at concrete inputs. -/
theorem fixed_strategy_contract_witness :
    (0 : ℚ) ≤ 1 ∧ (0 : ℚ) ≤ 2 ∧
    ((FixedDelayStrategy.init 1 2).build_typo_event defaultContext = none ∧
     (defaultContext.char = '\n' →
       (FixedDelayStrategy.init 1 2).get_delay defaultContext.char defaultContext = 2) ∧
     (defaultContext.char ≠ '\n' →
       (FixedDelayStrategy.init 1 2).get_delay defaultContext.char defaultContext = 1)) :=
  ⟨by norm_num, by norm_num,
   fixed_strategy_contract 1 2 (by norm_num) (by norm_num) defaultContext⟩

theorem runFuel_succ {σ : Type} (S : Strategy σ) (ctxs : List DelayContext)
    (tl tc f : Nat) (s : MState σ) :
    runFuel S ctxs tl tc (f + 1) s
      = (match (step S ctxs tl tc s).next with
         | .inr b => ((step S ctxs tl tc s).ops, some b)
         | .inl s' => ((step S ctxs tl tc s).ops ++ (runFuel S ctxs tl tc f s').1,
                       (runFuel S ctxs tl tc f s').2)) := rfl

theorem runFuel_mono {σ : Type} (S : Strategy σ) (ctxs : List DelayContext)
    (tl tc : Nat) :
    ∀ (f : Nat) (s : MState σ) (ops : List Op) (b : Bool),
      runFuel S ctxs tl tc f s = (ops, some b) →
      runFuel S ctxs tl tc (f + 1) s = (ops, some b) := by
  intro f
  induction f with
  | zero =>
    intro s ops b h
    exact absurd h (by simp [runFuel])
  | succ f ih =>
    intro s ops b h
    rw [runFuel_succ] at h
    rw [runFuel_succ]
    cases hstep : (step S ctxs tl tc s).next with
    | inr b' =>
      rw [hstep] at h
      exact h
    | inl s' =>
      rw [hstep] at h
      change ((step S ctxs tl tc s).ops ++ (runFuel S ctxs tl tc f s').1,
              (runFuel S ctxs tl tc f s').2) = (ops, some b) at h
      change ((step S ctxs tl tc s).ops ++ (runFuel S ctxs tl tc (f + 1) s').1,
              (runFuel S ctxs tl tc (f + 1) s').2) = (ops, some b)
      rcases hr : runFuel S ctxs tl tc f s' with ⟨ops1, r1⟩
      rw [hr] at h
      injection h with h1 h2
      simp only at h1 h2
      rw [ih s' ops1 b (by rw [hr, h2])]
      rw [h1]

theorem runFuel_le {σ : Type} (S : Strategy σ) (ctxs : List DelayContext)
    (tl tc : Nat) (f g : Nat) (hfg : f ≤ g) (s : MState σ) (ops : List Op) (b : Bool)
    (h : runFuel S ctxs tl tc f s = (ops, some b)) :
    runFuel S ctxs tl tc g s = (ops, some b) := by
  induction g with
  | zero =>
    have : f = 0 := by omega
    subst this
    exact h
  | succ g ih =>
    by_cases hfg' : f = g + 1
    · subst hfg'
      exact h
    · exact runFuel_mono S ctxs tl tc g s ops b (ih (by omega))

/-- CLAIM C10: for the empty input text, the context builder returns zero
contexts and a single empty raw line, so the char-by-char driver sets
total_chars to 0 but total_lines to 1 and returns true immediately,
emitting no character-send or progress operations. -/
theorem empty_text_immediate_completion {σ : Type} (S : Strategy σ) (s0 : σ)
    (fuel : Nat) (hf : 1 ≤ fuel) :
    type_char_by_char S [] s0 fuel = ([], some true) ∧
    (build_delay_contexts []).1 = [] ∧
    (build_delay_contexts []).2 = [[]] ∧
    (build_delay_contexts []).2.length = 1 ∧
    ([] : List Char).length = 0 := by
  obtain ⟨k, rfl⟩ : ∃ k, fuel = k + 1 := ⟨fuel - 1, by omega⟩
  exact ⟨rfl, rfl, rfl, rfl, rfl⟩

/-- Witness for C10 at a concrete strategy and fuel. -/
theorem empty_text_immediate_completion_witness :
    1 ≤ 1 ∧
    (type_char_by_char (FixedDelayStrategy.init 0 0).toStrategy [] () 1
        = ([], some true) ∧
     (build_delay_contexts []).1 = [] ∧
     (build_delay_contexts []).2 = [[]] ∧
     (build_delay_contexts []).2.length = 1 ∧
     ([] : List Char).length = 0) :=
  ⟨le_refl 1,
   empty_text_immediate_completion (FixedDelayStrategy.init 0 0).toStrategy () 1 (le_refl 1)⟩

theorem runFuel_cons {σ : Type} (S : Strategy σ) (ctxs : List DelayContext)
    (tl tc f : Nat) (s s' : MState σ) (ops0 : List Op) (inj : Option TypoEvent)
    (h : step S ctxs tl tc s = ⟨ops0, inj, .inl s'⟩) :
    runFuel S ctxs tl tc (f + 1) s
      = (ops0 ++ (runFuel S ctxs tl tc f s').1, (runFuel S ctxs tl tc f s').2) := by
  rw [runFuel_succ, h]

theorem runFuel_done {σ : Type} (S : Strategy σ) (ctxs : List DelayContext)
    (tl tc f : Nat) (s : MState σ) (ops0 : List Op) (inj : Option TypoEvent) (b : Bool)
    (h : step S ctxs tl tc s = ⟨ops0, inj, .inr b⟩) :
    runFuel S ctxs tl tc (f + 1) s = (ops0, some b) := by
  rw [runFuel_succ, h]

/-- Once the typist has noticed a pending typo (TYPO_NOTICED_HESITATING
with event e, stream position n), the next three loop iterations perform
the whole correction: a silent hesitation step, then exactly
n - typo_index backspace operations, then the re-emission of exactly the
original intended characters at positions typo_index..n, after which the
visible buffer again equals the true text prefix of length n. -/
theorem correction_from_hesitating {σ : Type} (text : List Char) (hbs : '\x08' ∉ text)
    (S : Strategy σ) (tl tc n : Nat) (e : TypoEvent) (cd : Int) (st : σ) (v : List Char)
    (hn : n ≤ text.length) (hi : e.typo_index < n) (hv : v = corrupted text n e) :
    ∃ (st₁ st₂ st₃ : σ) (cd₃ : Int),
      step S (build_delay_contexts text).1 tl tc
          ⟨n, .typoNoticedHesitating, some e, cd, st⟩
        = ⟨[], none, .inl ⟨n, .correctingBackspace, some e, cd, st₁⟩⟩ ∧
      step S (build_delay_contexts text).1 tl tc
          ⟨n, .correctingBackspace, some e, cd, st₁⟩
        = ⟨List.replicate (n - e.typo_index) (Op.send '\x08'), none,
           .inl ⟨n, .correctingRetype, some e, cd, st₂⟩⟩ ∧
      step S (build_delay_contexts text).1 tl tc
          ⟨n, .correctingRetype, some e, cd, st₂⟩
        = ⟨((text.drop e.typo_index).take (n - e.typo_index)).map Op.send, none,
           .inl ⟨n, .resumeNormal, some e, cd₃, st₃⟩⟩ ∧
      applyOps v (List.replicate (n - e.typo_index) (Op.send '\x08')
          ++ ((text.drop e.typo_index).take (n - e.typo_index)).map Op.send)
        = text.take n := by
  have hlen := ctxs_length text
  obtain ⟨st₁, hA⟩ :=
    step_hesitate_some S (build_delay_contexts text).1 tl tc n e cd st
  have hB := step_backspace_some S (build_delay_contexts text).1 tl tc n e cd st₁
  have hC := step_retype_some S (build_delay_contexts text).1 tl tc n e cd
    (backspaceLoop S (n - e.typo_index) (n - e.typo_index) 1 st₁).2 hi.le (by omega)
  have hchars :
      ((((build_delay_contexts text).1.drop e.typo_index).take (n - e.typo_index)).map
        (·.char))
      = (text.drop e.typo_index).take (n - e.typo_index) := by
    rw [List.map_take, List.map_drop, ctxs_map_char]
  have hops :
      ((((build_delay_contexts text).1.drop e.typo_index).take (n - e.typo_index)).map
        (fun c => Op.send c.char))
      = ((text.drop e.typo_index).take (n - e.typo_index)).map Op.send := by
    rw [← hchars, List.map_map]
    rfl
  rw [hops] at hC
  refine ⟨st₁, _, _, _, hA, hB, hC, ?_⟩
  rw [applyOps_append, applyOps_replicate_backspace]
  have hvl : v.length = n := by
    rw [hv, corrupted, List.length_set, List.length_take]
    omega
  rw [hvl]
  have hsub : n - (n - e.typo_index) = e.typo_index := by omega
  rw [hsub, hv, corrupted, take_set_of_le _ _ (le_refl _), List.take_take]
  have hmin : min e.typo_index n = e.typo_index := by omega
  rw [hmin]
  have hmem : ∀ c ∈ (text.drop e.typo_index).take (n - e.typo_index), c ≠ '\x08' := by
    intro c hc hceq
    exact hbs (hceq ▸ List.mem_of_mem_drop (List.mem_of_mem_take hc))
  rw [applyOps_sends _ _ hmem]
  have hsplit : n = e.typo_index + (n - e.typo_index) := by omega
  conv_rhs => rw [hsplit, List.take_add]

/-- CLAIM C2: whenever a pending TypoEvent at global index i has been
noticed (driver at TYPO_NOTICED_HESITATING, stream position n reached
before correction, driver invariant holding for the visible buffer), the
correction first emits exactly n - i backspace operations and then
re-emits exactly the original intended characters of the input text at
positions i..n, so that the visible output equals the true input prefix
of length n when the machine reaches RESUME_NORMAL. -/
theorem typo_correction_round_trip {σ : Type} (text : List Char) (hbs : '\x08' ∉ text)
    (S : Strategy σ) (tl tc n : Nat) (e : TypoEvent) (cd : Int) (st : σ) (v : List Char)
    (hInv : DriverInv text (⟨n, .typoNoticedHesitating, some e, cd, st⟩ : MState σ) v) :
    ∃ (st₁ st₂ st₃ : σ) (cd₃ : Int),
      step S (build_delay_contexts text).1 tl tc
          ⟨n, .typoNoticedHesitating, some e, cd, st⟩
        = ⟨[], none, .inl ⟨n, .correctingBackspace, some e, cd, st₁⟩⟩ ∧
      step S (build_delay_contexts text).1 tl tc
          ⟨n, .correctingBackspace, some e, cd, st₁⟩
        = ⟨List.replicate (n - e.typo_index) (Op.send '\x08'), none,
           .inl ⟨n, .correctingRetype, some e, cd, st₂⟩⟩ ∧
      step S (build_delay_contexts text).1 tl tc
          ⟨n, .correctingRetype, some e, cd, st₂⟩
        = ⟨((text.drop e.typo_index).take (n - e.typo_index)).map Op.send, none,
           .inl ⟨n, .resumeNormal, some e, cd₃, st₃⟩⟩ ∧
      applyOps v (List.replicate (n - e.typo_index) (Op.send '\x08')
          ++ ((text.drop e.typo_index).take (n - e.typo_index)).map Op.send)
        = text.take n := by
  have hn : n ≤ text.length := hInv.1
  have h3 : e.typo_index < n ∧ e.typed_wrong_char ≠ '\x08' ∧ v = corrupted text n e :=
    hInv.2
  exact correction_from_hesitating text hbs S tl tc n e cd st v hn h3.1 h3.2.2

/-- Concrete typo event used in witnesses and the test runs. -/
def testEvent : TypoEvent := ⟨'a', 'x', 0, 0, 1, none, 0, false⟩

/-- Witness for C2 at a concrete state: text ab, typo at index 0 noticed
at position 2, visible buffer xb. -/
theorem typo_correction_round_trip_witness :
    ('\x08' ∉ ['a', 'b'] ∧
     DriverInv ['a', 'b']
       (⟨2, .typoNoticedHesitating, some testEvent, 0, ()⟩ : MState Unit) ['x', 'b']) ∧
    (∃ (st₁ st₂ st₃ : Unit) (cd₃ : Int),
      step (FixedDelayStrategy.init 0 0).toStrategy (build_delay_contexts ['a', 'b']).1 1 2
          ⟨2, .typoNoticedHesitating, some testEvent, 0, ()⟩
        = ⟨[], none, .inl ⟨2, .correctingBackspace, some testEvent, 0, st₁⟩⟩ ∧
      step (FixedDelayStrategy.init 0 0).toStrategy (build_delay_contexts ['a', 'b']).1 1 2
          ⟨2, .correctingBackspace, some testEvent, 0, st₁⟩
        = ⟨List.replicate (2 - testEvent.typo_index) (Op.send '\x08'), none,
           .inl ⟨2, .correctingRetype, some testEvent, 0, st₂⟩⟩ ∧
      step (FixedDelayStrategy.init 0 0).toStrategy (build_delay_contexts ['a', 'b']).1 1 2
          ⟨2, .correctingRetype, some testEvent, 0, st₂⟩
        = ⟨((['a', 'b'].drop testEvent.typo_index).take (2 - testEvent.typo_index)).map
             Op.send, none,
           .inl ⟨2, .resumeNormal, some testEvent, cd₃, st₃⟩⟩ ∧
      applyOps ['x', 'b'] (List.replicate (2 - testEvent.typo_index) (Op.send '\x08')
          ++ ((['a', 'b'].drop testEvent.typo_index).take
               (2 - testEvent.typo_index)).map Op.send)
        = ['a', 'b'].take 2) :=
  ⟨⟨by decide, by decide, by decide, by decide, by decide⟩,
   typo_correction_round_trip ['a', 'b'] (by decide)
     (FixedDelayStrategy.init 0 0).toStrategy 1 2 2 testEvent 0 () ['x', 'b']
     ⟨by decide, by decide, by decide, by decide⟩⟩

/-- CLAIM C8: if a typo is pending and unnoticed when the input is
exhausted (stream position = text length), the state machine still
reaches TYPO_NOTICED_HESITATING with the word tracking finalized
immediately, performs the full backspace-and-retype correction, and only
after the correction does the char-by-char loop return true, with the
visible buffer equal to the whole input text. -/
theorem final_char_typo_fully_corrected {σ : Type} (text : List Char)
    (hbs : '\x08' ∉ text) (S : Strategy σ) (tl tc : Nat)
    (e : TypoEvent) (cd : Int) (st : σ) (v : List Char)
    (hInv : DriverInv text
      (⟨text.length, .typoActiveUnnoticed, some e, cd, st⟩ : MState σ) v) :
    step S (build_delay_contexts text).1 tl tc
        ⟨text.length, .typoActiveUnnoticed, some e, cd, st⟩
      = ⟨[], none, .inl ⟨text.length, .typoNoticedHesitating,
                         some (finalize_typo_word_count e), cd, st⟩⟩ ∧
    ∀ fuel, 6 ≤ fuel →
      ∃ ops, runFuel S (build_delay_contexts text).1 tl tc fuel
          ⟨text.length, .typoActiveUnnoticed, some e, cd, st⟩ = (ops, some true) ∧
        applyOps v ops = text := by
  have hlen := ctxs_length text
  have h3 : e.typo_index < text.length ∧ e.typed_wrong_char ≠ '\x08' ∧
      v = corrupted text text.length e := hInv.2
  have hfp := finalize_preserves e
  have hstep0 := step_emit_exhausted_unnoticed S (build_delay_contexts text).1 tl tc
    text.length e cd st (by omega)
  refine ⟨hstep0, ?_⟩
  have hi' : (finalize_typo_word_count e).typo_index < text.length := by
    rw [hfp.1]
    exact h3.1
  have hv' : v = corrupted text text.length (finalize_typo_word_count e) := by
    rw [h3.2.2, corrupted, corrupted, hfp.1, hfp.2.1]
  obtain ⟨st₁, st₂, st₃, cd₃, hA, hB, hC, hD⟩ :=
    correction_from_hesitating text hbs S tl tc text.length
      (finalize_typo_word_count e) cd st v (le_refl _) hi' hv'
  intro fuel hfuel
  refine ⟨List.replicate (text.length - (finalize_typo_word_count e).typo_index)
      (Op.send '\x08')
    ++ ((text.drop (finalize_typo_word_count e).typo_index).take
         (text.length - (finalize_typo_word_count e).typo_index)).map Op.send, ?_, ?_⟩
  · apply runFuel_le S _ tl tc 6 fuel hfuel
    have h6 := runFuel_cons S (build_delay_contexts text).1 tl tc 5 _ _ _ _ hstep0
    have h5 := runFuel_cons S (build_delay_contexts text).1 tl tc 4 _ _ _ _ hA
    have h4 := runFuel_cons S (build_delay_contexts text).1 tl tc 3 _ _ _ _ hB
    have h3' := runFuel_cons S (build_delay_contexts text).1 tl tc 2 _ _ _ _ hC
    have h2' := runFuel_cons S (build_delay_contexts text).1 tl tc 1 _ _ _ _
      (step_resume S (build_delay_contexts text).1 tl tc text.length
        (some (finalize_typo_word_count e)) cd₃ st₃)
    have h1' := runFuel_done S (build_delay_contexts text).1 tl tc 0 _ _ _ _
      (step_emit_exhausted_normal S (build_delay_contexts text).1 tl tc
        text.length none cd₃ st₃ (by omega))
    rw [h6, h5, h4, h3', h2', h1']
    simp
  · rw [hD, List.take_length]

/-- Witness for C8 at a concrete state: text a with an unnoticed typo at
index 0 and the input exhausted. -/
theorem final_char_typo_fully_corrected_witness :
    ('\x08' ∉ ['a'] ∧
     DriverInv ['a']
       (⟨1, .typoActiveUnnoticed, some testEvent, 0, ()⟩ : MState Unit) ['x']) ∧
    (step (FixedDelayStrategy.init 0 0).toStrategy (build_delay_contexts ['a']).1 1 1
        ⟨1, .typoActiveUnnoticed, some testEvent, 0, ()⟩
      = ⟨[], none, .inl ⟨1, .typoNoticedHesitating,
                         some (finalize_typo_word_count testEvent), 0, ()⟩⟩ ∧
     ∀ fuel, 6 ≤ fuel →
       ∃ ops, runFuel (FixedDelayStrategy.init 0 0).toStrategy
           (build_delay_contexts ['a']).1 1 1 fuel
           ⟨1, .typoActiveUnnoticed, some testEvent, 0, ()⟩ = (ops, some true) ∧
         applyOps ['x'] ops = ['a']) :=
  ⟨⟨by decide, by decide, by decide, by decide, by decide⟩,
   final_char_typo_fully_corrected ['a'] (by decide)
     (FixedDelayStrategy.init 0 0).toStrategy 1 1 testEvent 0 () ['x']
     ⟨by decide, by decide, by decide, by decide⟩⟩

theorem stepEmit_injected {σ : Type} (S : Strategy σ) (ctxs : List DelayContext)
    (tl tc : Nat) (s : MState σ) (e : TypoEvent)
    (h : (stepEmit S ctxs tl tc s).injected = some e) :
    s.phase = .typingNormal ∧ s.cooldown ≤ 0 := by
  rw [stepEmit] at h
  by_cases h0 : s.nextIndex < ctxs.length
  · rw [dif_pos h0] at h
    change (if s.phase = .typingNormal ∧ s.cooldown ≤ 0 then
        S.build_typo_event (ctxs.get ⟨s.nextIndex, h0⟩) s.strat
      else (none, s.strat)).1 = some e at h
    by_cases hg : s.phase = .typingNormal ∧ s.cooldown ≤ 0
    · exact hg
    · rw [if_neg hg] at h
      exact absurd h (by simp)
  · rw [dif_neg h0] at h
    split at h
    · exact absurd h (by simp)
    · exact absurd h (by simp)

theorem stepHesitate_injected {σ : Type} (S : Strategy σ) (ctxs : List DelayContext)
    (s : MState σ) : (stepHesitate S ctxs s).injected = none := by
  rw [stepHesitate]
  cases hev : s.typoEvent <;> rfl

theorem stepBackspace_injected {σ : Type} (S : Strategy σ) (s : MState σ) :
    (stepBackspace S s).injected = none := by
  rw [stepBackspace]
  cases hev : s.typoEvent <;> rfl

theorem stepRetype_injected {σ : Type} (S : Strategy σ) (ctxs : List DelayContext)
    (s : MState σ) : (stepRetype S ctxs s).injected = none := by
  rw [stepRetype]
  cases hev : s.typoEvent <;> rfl

/-- CLAIM C9: during a char-by-char run, a new TypoEvent can be created
only in an iteration entered with phase TYPING_NORMAL and an exhausted
cooldown counter; moreover, in any state satisfying the driver invariant
the TYPING_NORMAL phase carries no pending event, so at most one
uncorrected typo is pending at any time and no new injection occurs
during TYPO_ACTIVE_UNNOTICED, hesitation, backspacing, or retyping. -/
theorem injection_only_in_typing_normal {σ : Type} (S : Strategy σ)
    (ctxs : List DelayContext) (tl tc : Nat) (s : MState σ) (e : TypoEvent)
    (hinj : (step S ctxs tl tc s).injected = some e) :
    s.phase = .typingNormal ∧ s.cooldown ≤ 0 ∧
    (∀ (text : List Char) (v : List Char), DriverInv text s v → s.typoEvent = none) := by
  obtain ⟨n, ph, ev, cd, st⟩ := s
  cases ph with
  | typingNormal =>
    have hE := stepEmit_injected S ctxs tl tc ⟨n, .typingNormal, ev, cd, st⟩ e hinj
    refine ⟨rfl, hE.2, ?_⟩
    intro text v hI
    exact hI.2.1
  | typoActiveUnnoticed =>
    have hE := stepEmit_injected S ctxs tl tc ⟨n, .typoActiveUnnoticed, ev, cd, st⟩ e hinj
    exact absurd hE.1 (by simp)
  | typoNoticedHesitating =>
    have hx := stepHesitate_injected S ctxs ⟨n, .typoNoticedHesitating, ev, cd, st⟩
    rw [show (step S ctxs tl tc ⟨n, .typoNoticedHesitating, ev, cd, st⟩).injected
        = (stepHesitate S ctxs ⟨n, .typoNoticedHesitating, ev, cd, st⟩).injected
        from rfl, hx] at hinj
    exact absurd hinj (by simp)
  | correctingBackspace =>
    have hx := stepBackspace_injected S ⟨n, .correctingBackspace, ev, cd, st⟩
    rw [show (step S ctxs tl tc ⟨n, .correctingBackspace, ev, cd, st⟩).injected
        = (stepBackspace S ⟨n, .correctingBackspace, ev, cd, st⟩).injected
        from rfl, hx] at hinj
    exact absurd hinj (by simp)
  | correctingRetype =>
    have hx := stepRetype_injected S ctxs ⟨n, .correctingRetype, ev, cd, st⟩
    rw [show (step S ctxs tl tc ⟨n, .correctingRetype, ev, cd, st⟩).injected
        = (stepRetype S ctxs ⟨n, .correctingRetype, ev, cd, st⟩).injected
        from rfl, hx] at hinj
    exact absurd hinj (by simp)
  | resumeNormal =>
    rw [step_resume] at hinj
    exact absurd hinj (by simp)

/-- Witness for C9 at a concrete injecting step. -/
def testInjectStrategy : Strategy Unit :=
  ⟨fun _ _ u => (0, u),
   fun ctx u => ((if ctx.global_index = 0 then some testEvent else none), u),
   fun e u => (decide (e.awareness_threshold_chars ≤ (e.chars_typed_after_typo : Int)), u),
   fun _ _ u => (0, u),
   fun u => (0, u),
   fun u => (0, u),
   fun _ _ u => (false, u),
   fun u => (0, u),
   fun u => (0, u)⟩

theorem injection_only_in_typing_normal_witness :
    ((step testInjectStrategy (build_delay_contexts ['a', 'b']).1 1 2
        (initState ())).injected = some testEvent) ∧
    ((initState () : MState Unit).phase = .typingNormal ∧
     (initState () : MState Unit).cooldown ≤ 0 ∧
     (∀ (text : List Char) (v : List Char), DriverInv text (initState ()) v →
       (initState () : MState Unit).typoEvent = none)) :=
  ⟨by decide,
   injection_only_in_typing_normal testInjectStrategy
     (build_delay_contexts ['a', 'b']).1 1 2 (initState ()) testEvent (by decide)⟩

/-- Whether an operation is an invocation of the progress callback. -/
def isProgressOp : Op → Bool
  | .progress _ _ _ _ => true
  | .send _ => false

/-- The claim as stated: every emitted operation (send, backspace or
retype) is immediately followed by a progress callback. -/
def everySendFollowedByProgress : List Op → Bool
  | [] => true
  | Op.send _ :: rest =>
    (match rest with
     | o :: _ => isProgressOp o
     | [] => false) && everySendFollowedByProgress rest
  | Op.progress _ _ _ _ :: rest => everySendFollowedByProgress rest

/-- COUNTEREXAMPLE to C5 as stated: on input ab with a strategy that
injects a typo at index 0 and notices it after one character, the run
completes, but its operation trace contains backspace and retype sends
that are not followed by any progress callback. -/
theorem progress_after_every_operation_counterexample :
    (type_char_by_char testInjectStrategy ['a', 'b'] () 10).2 = some true ∧
    everySendFollowedByProgress
      (type_char_by_char testInjectStrategy ['a', 'b'] () 10).1 = false := by
  constructor <;> rfl

theorem retypeLoop_all_sends {σ : Type} (S : Strategy σ) (ctxs : List DelayContext) :
    ∀ (n idx : Nat) (st : σ) (o : Op), o ∈ (retypeLoop S ctxs n idx st).1 →
      ∃ c, o = Op.send c := by
  intro n
  induction n with
  | zero => intro idx st o ho; simp [retypeLoop] at ho
  | succ n ih =>
    intro idx st o ho
    rw [retypeLoop] at ho
    rcases List.mem_cons.mp ho with h | h
    · exact ⟨_, h⟩
    · exact ih (idx + 1) _ o h

/-- CLAIM C5 as amended: in char-by-char mode the progress callback is
invoked immediately after every ordinary character emission of the
TYPING_NORMAL / TYPO_ACTIVE_UNNOTICED phases, but the backspace
operations of CORRECTING_BACKSPACE and the retyped characters of
CORRECTING_RETYPE are emitted without any progress callback. -/
theorem progress_after_ordinary_sends_only {σ : Type} (S : Strategy σ)
    (ctxs : List DelayContext) (tl tc : Nat) :
    (∀ (n : Nat) (ph : TypingPhase) (ev : Option TypoEvent) (cd : Int) (st : σ)
       (h0 : n < ctxs.length),
       ph = .typingNormal ∨ ph = .typoActiveUnnoticed →
       ∃ c, (step S ctxs tl tc ⟨n, ph, ev, cd, st⟩).ops
         = [Op.send c, Op.progress (ctxs.get ⟨n, h0⟩).line_index (n + 1) tl tc]) ∧
    (∀ (n : Nat) (e : TypoEvent) (cd : Int) (st : σ),
       (step S ctxs tl tc ⟨n, .correctingBackspace, some e, cd, st⟩).ops
         = List.replicate (n - e.typo_index) (Op.send '\x08')) ∧
    (∀ (n : Nat) (e : TypoEvent) (cd : Int) (st : σ),
       ∀ o ∈ (step S ctxs tl tc ⟨n, .correctingRetype, some e, cd, st⟩).ops,
         ∃ c, o = Op.send c) := by
  refine ⟨?_, ?_, ?_⟩
  · intro n ph ev cd st h0 hph
    rcases hph with rfl | rfl
    · show ∃ c, (stepEmit S ctxs tl tc ⟨n, .typingNormal, ev, cd, st⟩).ops = _
      rw [stepEmit, dif_pos h0]
      exact ⟨_, rfl⟩
    · show ∃ c, (stepEmit S ctxs tl tc ⟨n, .typoActiveUnnoticed, ev, cd, st⟩).ops = _
      rw [stepEmit, dif_pos h0]
      exact ⟨_, rfl⟩
  · intro n e cd st
    rw [step_backspace_some]
  · intro n e cd st o ho
    have hx : (step S ctxs tl tc ⟨n, .correctingRetype, some e, cd, st⟩).ops
        = (retypeLoop S ctxs (n - e.typo_index) e.typo_index st).1 := rfl
    rw [hx] at ho
    exact retypeLoop_all_sends S ctxs _ _ _ o ho

/-- Witness for the amended C5 at concrete inputs. -/
theorem progress_after_ordinary_sends_only_witness :
    (0 < (build_delay_contexts ['a', 'b']).1.length) ∧
    (∃ c, (step (FixedDelayStrategy.init 0 0).toStrategy
        (build_delay_contexts ['a', 'b']).1 1 2 ⟨0, .typingNormal, none, 0, ()⟩).ops
      = [Op.send c, Op.progress 0 1 1 2]) ∧
    ((step (FixedDelayStrategy.init 0 0).toStrategy
        (build_delay_contexts ['a', 'b']).1 1 2
        ⟨2, .correctingBackspace, some testEvent, 0, ()⟩).ops
      = List.replicate (2 - testEvent.typo_index) (Op.send '\x08')) ∧
    (∀ o ∈ (step (FixedDelayStrategy.init 0 0).toStrategy
        (build_delay_contexts ['a', 'b']).1 1 2
        ⟨2, .correctingRetype, some testEvent, 0, ()⟩).ops, ∃ c, o = Op.send c) :=
  ⟨by decide,
   (progress_after_ordinary_sends_only (FixedDelayStrategy.init 0 0).toStrategy
     (build_delay_contexts ['a', 'b']).1 1 2).1 0 .typingNormal none 0 () (by decide)
     (Or.inl rfl),
   (progress_after_ordinary_sends_only (FixedDelayStrategy.init 0 0).toStrategy
     (build_delay_contexts ['a', 'b']).1 1 2).2.1 2 testEvent 0 (),
   (progress_after_ordinary_sends_only (FixedDelayStrategy.init 0 0).toStrategy
     (build_delay_contexts ['a', 'b']).1 1 2).2.2 2 testEvent 0 ()⟩

/-- Deterministic model of the seeded random.Random generator owned by a
HumanLikeDelayStrategy instance.  The concrete draw values differ from
the source's Mersenne Twister, but, exactly as in the source, every draw
is a pure function of the seed and of the draws made before it, which is
the property the determinism claims rest on. -/
structure Rng where
  state : Nat
deriving DecidableEq

def mkRng (seed : Option Int) : Rng :=
  ⟨(seed.getD 0).natAbs % 2147483648⟩

def rngNext (r : Rng) : Nat × Rng :=
  let s := (r.state * 1103515245 + 12345) % 2147483648
  (s, ⟨s⟩)

/-- Model of random(): a rational in the unit interval. -/
def rngRandom (r : Rng) : ℚ × Rng :=
  let p := rngNext r
  ((p.1 : ℚ) / 2147483648, p.2)

/-- Model of uniform(a, b). -/
def rngUniform (a b : ℚ) (r : Rng) : ℚ × Rng :=
  let p := rngRandom r
  (a + (b - a) * p.1, p.2)

/-- Model of randint(a, b) for a less than or equal to b. -/
def rngRandint (a b : Int) (r : Rng) : Int × Rng :=
  let p := rngNext r
  (a + (p.1 : Int) % (b - a + 1), p.2)

/-- Model of choice(l) for nonempty l. -/
def rngChoice (l : List Char) (r : Rng) : Char × Rng :=
  let p := rngNext r
  (l.getD (p.1 % l.length) 'a', p.2)

/-- Source constant _NEARBY_KEYS: QWERTY-adjacent substitution sets. -/
def nearbyKeys : Char → Option (List Char)
  | 'a' => some "qwsz".toList
  | 'b' => some "vghn".toList
  | 'c' => some "xdfv".toList
  | 'd' => some "ersfcx".toList
  | 'e' => some "wsdr".toList
  | 'f' => some "drtgvc".toList
  | 'g' => some "ftyhbv".toList
  | 'h' => some "gyujnb".toList
  | 'i' => some "ujko".toList
  | 'j' => some "huikmn".toList
  | 'k' => some "jiolm".toList
  | 'l' => some "kop".toList
  | 'm' => some "njk".toList
  | 'n' => some "bhjm".toList
  | 'o' => some "iklp".toList
  | 'p' => some "ol".toList
  | 'q' => some "wa".toList
  | 'r' => some "edft".toList
  | 's' => some "awedxz".toList
  | 't' => some "rfgy".toList
  | 'u' => some "yihj".toList
  | 'v' => some "cfgb".toList
  | 'w' => some "qase".toList
  | 'x' => some "zsdc".toList
  | 'y' => some "tugh".toList
  | 'z' => some "asx".toList
  | _ => none

/-- Source constant _PUNCTUATION_PAUSE_CHARS. -/
def punctuationPauseChars : List Char := [',', '.', ';', ':']

/-- Source constant _CLOSING_BRACKETS. -/
def closingBrackets : List Char := [')', ']', '\x7d']

/-- Source dataclass HumanTypingConfig (settings.py), with the source's
default values; millisecond and probability fields are modelled as
rationals, character counts as integers. -/
structure HumanTypingConfig where
  enabled : Bool := false
  base_delay_ms : ℚ := 45
  jitter_ms : ℚ := 18
  punctuation_pause_multiplier : ℚ := 2
  newline_pause_multiplier : ℚ := 14 / 5
  burst_min_chars : Int := 8
  burst_max_chars : Int := 20
  burst_pause_min_ms : ℚ := 150
  burst_pause_max_ms : ℚ := 500
  typo_enabled : Bool := false
  typo_probability : ℚ := 3 / 500
  typo_cooldown_min_chars : Int := 28
  typo_cooldown_max_chars : Int := 72
  typo_awareness_min_chars : Int := 2
  typo_awareness_max_chars : Int := 9
  typo_awareness_word_based : Bool := false
  typo_awareness_min_words : Int := 0
  typo_awareness_max_words : Int := 1
  correction_hesitation_min_ms : ℚ := 240
  correction_hesitation_max_ms : ℚ := 900
  double_hesitation_probability : ℚ := 4 / 25
  backspace_min_ms : ℚ := 45
  backspace_max_ms : ℚ := 170
  backspace_pause_every_n : Int := 6
  backspace_pause_min_ms : ℚ := 80
  backspace_pause_max_ms : ℚ := 260
  safe_code_typo_mode : Bool := true
  long_word_pause_min_ms : ℚ := 20
  long_word_pause_max_ms : ℚ := 110
  symbol_line_pause_min_ms : ℚ := 25
  symbol_line_pause_max_ms : ℚ := 100
  code_pause_probability : ℚ := 7 / 20
  code_pause_min_ms : ℚ := 200
  code_pause_max_ms : ℚ := 650
  seed : Option Int := none

/-- Mutable per-instance state of HumanLikeDelayStrategy: the owned
random generator and the burst counter (source field with a leading
underscore). -/
structure HLState where
  rng : Rng
  burst_remaining : Int
deriving DecidableEq

/-- Python startswith against a pattern list. -/
def listStartsWith : List Char → List Char → Bool
  | _, [] => true
  | [], _ => false
  | c :: cs, p :: ps => (c = p) && listStartsWith cs ps

/-- Python endswith against a pattern list. -/
def listEndsWith (l p : List Char) : Bool :=
  listStartsWith l.reverse p.reverse

/-- Python strip() on both ends. -/
def stripWs (l : List Char) : List Char :=
  ((l.dropWhile (fun c => c.isWhitespace)).reverse.dropWhile
    (fun c => c.isWhitespace)).reverse

/-- Length of the leading indentation, as computed by the source with
lstrip over space and tab. -/
def indentLen (l : List Char) : Nat :=
  l.length - (l.dropWhile (fun c => c = ' ' || c = '\t')).length

namespace HumanLikeDelayStrategy

/-- Source __init__: the strategy owns a generator seeded from the
configuration and a zero burst counter. -/
def initState (config : HumanTypingConfig) : HLState :=
  ⟨mkRng config.seed, 0⟩

/-- Source static method _is_symbol_heavy_line. -/
def is_symbol_heavy_line (line : List Char) : Bool :=
  let stripped := stripWs line
  if stripped.isEmpty then false
  else
    let total := stripped.length
    let symbols := stripped.countP
      (fun ch => !(ch.isAlphanum || ch.isWhitespace || ch = '_'))
    decide ((symbols : ℚ) / (total : ℚ) ≥ 28 / 100)

/-- Source static method _line_looks_like_code_boundary. -/
def line_looks_like_code_boundary (line : List Char) : Bool :=
  let stripped := stripWs line
  if stripped.isEmpty then false
  else
    (listStartsWith stripped "def ".toList ||
     listStartsWith stripped "class ".toList ||
     listStartsWith stripped "function ".toList ||
     listStartsWith stripped "fn ".toList ||
     listStartsWith stripped "if ".toList ||
     listStartsWith stripped "for ".toList ||
     listStartsWith stripped "while ".toList) ||
    (listEndsWith stripped "\x7b".toList ||
     listEndsWith stripped "\x7d".toList ||
     listEndsWith stripped ":".toList ||
     listEndsWith stripped ");".toList ||
     listEndsWith stripped "\x7d;".toList)

/-- Source static method _word_length_from. -/
def word_length_from (line : List Char) (start : Nat) : Nat :=
  ((line.drop start).takeWhile (fun ch => ch.isAlphanum || ch = '_')).length

/-- Source static method _is_word_start. -/
def is_word_start (context : DelayContext) : Bool :=
  let ch := context.char
  if !(ch.isAlphanum || ch = '_') then false
  else if context.col_index = 0 then true
  else
    !(match context.prev_char with
      | none => false
      | some p => p.isAlphanum || p = '_')

/-- Scanning loop of _likely_inside_string: toggle the active quote on
unescaped quote characters of the active type. -/
def likelyInsideStringGo : List Char → Option Char → Bool → Bool
  | [], aq, _ => aq.isSome
  | ch :: rest, aq, escaped =>
    if escaped then likelyInsideStringGo rest aq false
    else if ch = '\\' then likelyInsideStringGo rest aq true
    else if ch = '\'' || ch = '"' then
      match aq with
      | none => likelyInsideStringGo rest (some ch) false
      | some q =>
        if q = ch then likelyInsideStringGo rest none false
        else likelyInsideStringGo rest aq false
    else likelyInsideStringGo rest aq false

/-- Source static method _likely_inside_string: the loop visits the
characters whose index does not exceed the column. -/
def likely_inside_string (line : List Char) (col_index : Nat) : Bool :=
  likelyInsideStringGo (line.take (col_index + 1)) none false

/-- Source method _is_typo_candidate. -/
def is_typo_candidate (config : HumanTypingConfig) (context : DelayContext) : Bool :=
  if (nearbyKeys context.char.toLower).isNone then false
  else if !config.safe_code_typo_mode then true
  else if !context.char.isAlpha then false
  else if context.line_text.contains '\\' then false
  else if likely_inside_string context.line_text context.col_index then false
  else if context.col_index < indentLen context.line_text then false
  else true

/-- Source method _base_delay_ms. -/
def base_delay_ms (config : HumanTypingConfig) (st : HLState) : ℚ × HLState :=
  let u := rngUniform (-config.jitter_ms) config.jitter_ms st.rng
  (max 1 (config.base_delay_ms + u.1), ⟨u.2, st.burst_remaining⟩)

/-- Source method _burst_delay_component. -/
def burst_delay_component (config : HumanTypingConfig) (st : HLState) : ℚ × HLState :=
  let st :=
    if st.burst_remaining ≤ 0 then
      let r := rngRandint (max 1 config.burst_min_chars) (max 1 config.burst_max_chars)
        st.rng
      (⟨r.2, r.1⟩ : HLState)
    else st
  let u := rngUniform (18 / 100) (32 / 100) st.rng
  let burst_speedup := u.1 * config.base_delay_ms
  let st : HLState := ⟨u.2, st.burst_remaining - 1⟩
  if st.burst_remaining ≤ 0 then
    let p := rngUniform config.burst_pause_min_ms config.burst_pause_max_ms st.rng
    (-burst_speedup + p.1, ⟨p.2, st.burst_remaining⟩)
  else (-burst_speedup, st)

/-- Source method _word_pause_component. -/
def word_pause_component (config : HumanTypingConfig) (context : DelayContext)
    (st : HLState) : ℚ × HLState :=
  if !is_word_start context then (0, st)
  else if word_length_from context.line_text context.col_index < 8 then (0, st)
  else
    let p := rngRandom st.rng
    if p.1 > 35 / 100 then (0, ⟨p.2, st.burst_remaining⟩)
    else
      let u := rngUniform config.long_word_pause_min_ms config.long_word_pause_max_ms p.2
      (u.1, ⟨u.2, st.burst_remaining⟩)

/-- Source method _symbol_line_pause_component. -/
def symbol_line_pause_component (config : HumanTypingConfig) (context : DelayContext)
    (st : HLState) : ℚ × HLState :=
  if context.col_index ≠ 0 then (0, st)
  else if !is_symbol_heavy_line context.line_text then (0, st)
  else
    let u := rngUniform config.symbol_line_pause_min_ms config.symbol_line_pause_max_ms
      st.rng
    (u.1, ⟨u.2, st.burst_remaining⟩)

/-- Source method get_delay (seconds, floored at one millisecond). -/
def get_delay (config : HumanTypingConfig) (_char : Char) (context : DelayContext)
    (st : HLState) : ℚ × HLState :=
  let b := base_delay_ms config st
  let base_ms := b.1
  let st := b.2
  let base_ms :=
    if context.char ∈ punctuationPauseChars then
      base_ms * max 1 config.punctuation_pause_multiplier
    else if context.char ∈ closingBrackets then
      base_ms * max (11 / 10) (config.punctuation_pause_multiplier * (85 / 100))
    else base_ms
  if context.char = '\n' then
    let base_ms := base_ms * max 1 config.newline_pause_multiplier
    let st : HLState := ⟨st.rng, 0⟩
    if line_looks_like_code_boundary context.line_text then
      let p := rngRandom st.rng
      let st : HLState := ⟨p.2, st.burst_remaining⟩
      if p.1 < config.code_pause_probability then
        let u := rngUniform config.code_pause_min_ms config.code_pause_max_ms st.rng
        (max (1 / 1000) ((base_ms + u.1) / 1000), ⟨u.2, st.burst_remaining⟩)
      else (max (1 / 1000) (base_ms / 1000), st)
    else (max (1 / 1000) (base_ms / 1000), st)
  else
    let c1 := burst_delay_component config st
    let c2 := word_pause_component config context c1.2
    let c3 := symbol_line_pause_component config context c2.2
    (max (1 / 1000) ((base_ms + c1.1 + c2.1 + c3.1) / 1000), c3.2)

/-- Source method build_typo_event. -/
def build_typo_event (config : HumanTypingConfig) (context : DelayContext)
    (st : HLState) : Option TypoEvent × HLState :=
  if !config.typo_enabled then (none, st)
  else
    let p := rngRandom st.rng
    let st : HLState := ⟨p.2, st.burst_remaining⟩
    if p.1 ≥ max 0 (min 1 config.typo_probability) then (none, st)
    else if !is_typo_candidate config context then (none, st)
    else
      match nearbyKeys context.char.toLower with
      | none => (none, st)
      | some keys =>
        let c := rngChoice keys st.rng
        let st : HLState := ⟨c.2, st.burst_remaining⟩
        let wrong := if context.char.isUpper then c.1.toUpper else c.1
        if wrong = context.char then (none, st)
        else
          let min_chars := max 1 config.typo_awareness_min_chars
          let max_chars := max min_chars config.typo_awareness_max_chars
          let aw : Option Int × HLState :=
            if config.typo_awareness_word_based then
              let min_words := max 0 config.typo_awareness_min_words
              let max_words := max min_words config.typo_awareness_max_words
              let r := rngRandint min_words max_words st.rng
              (some r.1, ⟨r.2, st.burst_remaining⟩)
            else (none, st)
          let r2 := rngRandint min_chars max_chars aw.2.rng
          (some ⟨context.char, wrong, context.global_index, 0, r2.1, aw.1, 0, false⟩,
           ⟨r2.2, aw.2.burst_remaining⟩)

/-- Source method typo_notice_reached (no randomness). -/
def typo_notice_reached (e : TypoEvent) : Bool :=
  if e.awareness_threshold_chars ≤ (e.chars_typed_after_typo : Int) then true
  else
    match e.awareness_threshold_words with
    | none => false
    | some w => w ≤ (e.words_typed_after_typo : Int)

/-- Source method correction_hesitation_delay. -/
def correction_hesitation_delay (config : HumanTypingConfig) (e : TypoEvent)
    (line_text : List Char) (st : HLState) : ℚ × HLState :=
  let min_ms := max 0 config.correction_hesitation_min_ms
  let max_ms := max min_ms config.correction_hesitation_max_ms
  let b1 : ℚ × Rng :=
    if 8 ≤ e.chars_to_backspace then
      let u := rngUniform 40 180 st.rng
      (u.1, u.2)
    else (0, st.rng)
  let b2 : ℚ × Rng :=
    if is_symbol_heavy_line line_text then
      let u := rngUniform 35 160 b1.2
      (b1.1 + u.1, u.2)
    else (b1.1, b1.2)
  let bonus_ms := b2.1
  let low := min_ms + bonus_ms * (35 / 100)
  let high := max_ms + bonus_ms
  let high := if high < low then low else high
  let u := rngUniform low high b2.2
  (u.1 / 1000, ⟨u.2, st.burst_remaining⟩)

/-- Source method maybe_double_hesitation_delay. -/
def maybe_double_hesitation_delay (config : HumanTypingConfig) (st : HLState) :
    ℚ × HLState :=
  let probability := max 0 (min 1 config.double_hesitation_probability)
  let p := rngRandom st.rng
  if p.1 ≥ probability then (0, ⟨p.2, st.burst_remaining⟩)
  else
    let u := rngUniform (5 / 100) (24 / 100) p.2
    (u.1, ⟨u.2, st.burst_remaining⟩)

/-- Source method backspace_delay. -/
def backspace_delay (config : HumanTypingConfig) (st : HLState) : ℚ × HLState :=
  let min_ms := max 1 config.backspace_min_ms
  let max_ms := max min_ms config.backspace_max_ms
  let u := rngUniform min_ms max_ms st.rng
  let p := rngRandom u.2
  if p.1 < 23 / 100 then
    let m := rngUniform (75 / 100) (12 / 10) p.2
    let d := max min_ms (min max_ms (u.1 * m.1))
    (d / 1000, ⟨m.2, st.burst_remaining⟩)
  else (u.1 / 1000, ⟨p.2, st.burst_remaining⟩)

/-- Source method should_backspace_pause (no randomness). -/
def should_backspace_pause (config : HumanTypingConfig) (done total : Nat) : Bool :=
  let every_n := max 0 config.backspace_pause_every_n
  if every_n ≤ 0 then false
  else if (total : Int) < every_n + 1 then false
  else if total ≤ done then false
  else if (done : Int) % every_n ≠ 0 then false
  else true

/-- Source method backspace_pause_delay. -/
def backspace_pause_delay (config : HumanTypingConfig) (st : HLState) : ℚ × HLState :=
  let min_ms := max 0 config.backspace_pause_min_ms
  let max_ms := max min_ms config.backspace_pause_max_ms
  let u := rngUniform min_ms max_ms st.rng
  (u.1 / 1000, ⟨u.2, st.burst_remaining⟩)

/-- Source method typo_cooldown_chars. -/
def typo_cooldown_chars (config : HumanTypingConfig) (st : HLState) : Int × HLState :=
  let min_chars := max 0 config.typo_cooldown_min_chars
  let max_chars := max min_chars config.typo_cooldown_max_chars
  let r := rngRandint min_chars max_chars st.rng
  (r.1, ⟨r.2, st.burst_remaining⟩)

end HumanLikeDelayStrategy

/-- The human-like strategy packaged for the driver. -/
def HumanLikeDelayStrategy.toStrategy (config : HumanTypingConfig) : Strategy HLState :=
  ⟨fun ch ctx st => HumanLikeDelayStrategy.get_delay config ch ctx st,
   fun ctx st => HumanLikeDelayStrategy.build_typo_event config ctx st,
   fun e st => (HumanLikeDelayStrategy.typo_notice_reached e, st),
   fun e line st => HumanLikeDelayStrategy.correction_hesitation_delay config e line st,
   fun st => HumanLikeDelayStrategy.maybe_double_hesitation_delay config st,
   fun st => HumanLikeDelayStrategy.backspace_delay config st,
   fun d t st => (HumanLikeDelayStrategy.should_backspace_pause config d t, st),
   fun st => HumanLikeDelayStrategy.backspace_pause_delay config st,
   fun st => HumanLikeDelayStrategy.typo_cooldown_chars config st⟩

/-- One call of the strategy interface, used to drive an instance through
an arbitrary call sequence. -/
inductive StratCall where
  | getDelay (ch : Char) (context : DelayContext)
  | buildTypo (context : DelayContext)
  | noticeReached (e : TypoEvent)
  | hesitation (e : TypoEvent) (line : List Char)
  | doubleHesitation
  | backspaceDelay
  | shouldPause (done total : Nat)
  | pauseDelay
  | cooldown

/-- Result of one strategy call. -/
inductive StratOutput where
  | delay (q : ℚ)
  | typo (e : Option TypoEvent)
  | flag (b : Bool)
  | count (n : Int)
deriving DecidableEq

/-- Dispatch one call to a HumanLikeDelayStrategy instance, threading its
state. -/
def runCall (config : HumanTypingConfig) : StratCall → HLState → StratOutput × HLState
  | .getDelay ch ctx, st =>
    let r := HumanLikeDelayStrategy.get_delay config ch ctx st
    (.delay r.1, r.2)
  | .buildTypo ctx, st =>
    let r := HumanLikeDelayStrategy.build_typo_event config ctx st
    (.typo r.1, r.2)
  | .noticeReached e, st => (.flag (HumanLikeDelayStrategy.typo_notice_reached e), st)
  | .hesitation e line, st =>
    let r := HumanLikeDelayStrategy.correction_hesitation_delay config e line st
    (.delay r.1, r.2)
  | .doubleHesitation, st =>
    let r := HumanLikeDelayStrategy.maybe_double_hesitation_delay config st
    (.delay r.1, r.2)
  | .backspaceDelay, st =>
    let r := HumanLikeDelayStrategy.backspace_delay config st
    (.delay r.1, r.2)
  | .shouldPause d t, st =>
    (.flag (HumanLikeDelayStrategy.should_backspace_pause config d t), st)
  | .pauseDelay, st =>
    let r := HumanLikeDelayStrategy.backspace_pause_delay config st
    (.delay r.1, r.2)
  | .cooldown, st =>
    let r := HumanLikeDelayStrategy.typo_cooldown_chars config st
    (.count r.1, r.2)

/-- Run one instance through a call sequence. -/
def runCalls (config : HumanTypingConfig) :
    List StratCall → HLState → List StratOutput × HLState
  | [], st => ([], st)
  | c :: cs, st =>
    let r := runCall config c st
    let rest := runCalls config cs r.2
    (r.1 :: rest.1, rest.2)

/-- Run two independent instances through an interleaved schedule; false
entries go to the first instance, true entries to the second.  Each
instance owns its state, as the source strategy owns its generator. -/
def runPair (config : HumanTypingConfig) :
    List (Bool × StratCall) → HLState → HLState → List StratOutput × List StratOutput
  | [], _, _ => ([], [])
  | (who, c) :: rest, sa, sb =>
    if who then
      let r := runCall config c sb
      let p := runPair config rest sa r.2
      (p.1, r.1 :: p.2)
    else
      let r := runCall config c sa
      let p := runPair config rest r.2 sb
      (r.1 :: p.1, p.2)

/-- The subsequence of a schedule addressed to one instance. -/
def projCalls (who : Bool) : List (Bool × StratCall) → List StratCall
  | [] => []
  | (w, c) :: rest => if w = who then c :: projCalls who rest else projCalls who rest

theorem runPair_fst (config : HumanTypingConfig) :
    ∀ (sched : List (Bool × StratCall)) (sa sb : HLState),
      (runPair config sched sa sb).1 = (runCalls config (projCalls false sched) sa).1 := by
  intro sched
  induction sched with
  | nil => intro sa sb; rfl
  | cons wc rest ih =>
    intro sa sb
    rcases wc with ⟨who, c⟩
    cases who with
    | false => simp [runPair, projCalls, runCalls, ih]
    | true => simp [runPair, projCalls, runCalls, ih]

theorem runPair_snd (config : HumanTypingConfig) :
    ∀ (sched : List (Bool × StratCall)) (sa sb : HLState),
      (runPair config sched sa sb).2 = (runCalls config (projCalls true sched) sb).1 := by
  intro sched
  induction sched with
  | nil => intro sa sb; rfl
  | cons wc rest ih =>
    intro sa sb
    rcases wc with ⟨who, c⟩
    cases who with
    | false => simp [runPair, projCalls, runCalls, ih]
    | true => simp [runPair, projCalls, runCalls, ih]

/-- CLAIM C3: with a fixed (non-None) seed, two independently constructed
HumanLikeDelayStrategy instances driven through identical call sequences
(in any interleaving) produce identical output sequences: identical
delays and identical typo-injection decisions.  Each instance owns its
state, so the calls addressed to one never disturb the other. -/
theorem seeded_strategy_deterministic (config : HumanTypingConfig) (seedVal : Int)
    (_hseed : config.seed = some seedVal)
    (sched : List (Bool × StratCall)) (calls : List StratCall)
    (hA : projCalls false sched = calls) (hB : projCalls true sched = calls) :
    (runPair config sched (HumanLikeDelayStrategy.initState config)
        (HumanLikeDelayStrategy.initState config)).1
      = (runPair config sched (HumanLikeDelayStrategy.initState config)
        (HumanLikeDelayStrategy.initState config)).2 := by
  rw [runPair_fst, runPair_snd, hA, hB]

/-- Concrete seeded configuration for the witnesses. -/
def testHumanConfig : HumanTypingConfig :=
  { seed := some 42, typo_enabled := true, typo_probability := 1 }

/-- Witness for C3: a concrete interleaved schedule driving both
instances through the same two calls. -/
theorem seeded_strategy_deterministic_witness :
    (testHumanConfig.seed = some 42 ∧
     projCalls false [(false, StratCall.backspaceDelay), (true, StratCall.backspaceDelay),
       (true, StratCall.cooldown), (false, StratCall.cooldown)]
       = [StratCall.backspaceDelay, StratCall.cooldown] ∧
     projCalls true [(false, StratCall.backspaceDelay), (true, StratCall.backspaceDelay),
       (true, StratCall.cooldown), (false, StratCall.cooldown)]
       = [StratCall.backspaceDelay, StratCall.cooldown]) ∧
    (runPair testHumanConfig
        [(false, StratCall.backspaceDelay), (true, StratCall.backspaceDelay),
         (true, StratCall.cooldown), (false, StratCall.cooldown)]
        (HumanLikeDelayStrategy.initState testHumanConfig)
        (HumanLikeDelayStrategy.initState testHumanConfig)).1
      = (runPair testHumanConfig
        [(false, StratCall.backspaceDelay), (true, StratCall.backspaceDelay),
         (true, StratCall.cooldown), (false, StratCall.cooldown)]
        (HumanLikeDelayStrategy.initState testHumanConfig)
        (HumanLikeDelayStrategy.initState testHumanConfig)).2 :=
  ⟨⟨rfl, rfl, rfl⟩,
   seeded_strategy_deterministic testHumanConfig 42 rfl
     [(false, StratCall.backspaceDelay), (true, StratCall.backspaceDelay),
      (true, StratCall.cooldown), (false, StratCall.cooldown)]
     [StratCall.backspaceDelay, StratCall.cooldown] rfl rfl⟩

theorem is_typo_candidate_false_of_unsafe (config : HumanTypingConfig)
    (context : DelayContext) (hsafe : config.safe_code_typo_mode = true)
    (hcond : ¬context.char.isAlpha = true ∨ '\\' ∈ context.line_text ∨
      HumanLikeDelayStrategy.likely_inside_string context.line_text context.col_index
        = true ∨
      context.col_index < indentLen context.line_text) :
    HumanLikeDelayStrategy.is_typo_candidate config context = false := by
  rw [HumanLikeDelayStrategy.is_typo_candidate]
  split_ifs with h1 h2 h3 h4 h5 h6
  · rfl
  · rw [hsafe] at h2
    simp at h2
  · rfl
  · rfl
  · rfl
  · rfl
  · rcases hcond with hc | hc | hc | hc
    · rw [Bool.not_eq_true] at h3
      simp [hc] at h3
    · exact h4 (List.elem_eq_true_of_mem hc)
    · exact absurd hc h5
    · exact absurd hc h6

/-- CLAIM C6: whenever safe_code_typo_mode is enabled, build_typo_event
never returns a TypoEvent for a character that is non-alphabetic, or
whose line contains a backslash, or that lies within the line's leading
indentation, or whose position is inside an open string literal (an odd
number of unescaped quote characters of the active type scanned up to
the column, as computed by the source _likely_inside_string). -/
theorem safe_mode_blocks_unsafe_typos (config : HumanTypingConfig)
    (context : DelayContext) (st : HLState)
    (hsafe : config.safe_code_typo_mode = true)
    (hcond : ¬context.char.isAlpha = true ∨ '\\' ∈ context.line_text ∨
      HumanLikeDelayStrategy.likely_inside_string context.line_text context.col_index
        = true ∨
      context.col_index < indentLen context.line_text) :
    (HumanLikeDelayStrategy.build_typo_event config context st).1 = none := by
  have hcand := is_typo_candidate_false_of_unsafe config context hsafe hcond
  rw [HumanLikeDelayStrategy.build_typo_event, hcand]
  by_cases h1 : config.typo_enabled
  · simp [h1]
  · simp [h1]

/-- Witness for C6: a character inside an open string literal is never
substituted when safe-code mode is on, even with injection probability 1. -/
theorem safe_mode_blocks_unsafe_typos_witness :
    (testHumanConfig.safe_code_typo_mode = true ∧
     HumanLikeDelayStrategy.likely_inside_string ['\'', 'a', 'b'] 1 = true) ∧
    (HumanLikeDelayStrategy.build_typo_event testHumanConfig
        ⟨'a', ['\'', 'a', 'b'], 0, 1, 1, some '\'', some 'b'⟩
        (HumanLikeDelayStrategy.initState testHumanConfig)).1 = none :=
  ⟨⟨rfl, by decide⟩,
   safe_mode_blocks_unsafe_typos testHumanConfig
     ⟨'a', ['\'', 'a', 'b'], 0, 1, 1, some '\'', some 'b'⟩
     (HumanLikeDelayStrategy.initState testHumanConfig) rfl
     (Or.inr (Or.inr (Or.inl (by decide))))⟩

/-- One invocation of a worker callback: a countdown progress tick
(line index -1, char index reused as remaining seconds) or the
completion callback with its flag and message (messages as char lists). -/
inductive WorkerCall where
  | onProgress (lineIndex charIndex totalLines totalChars : Int)
  | onDone (completed : Bool) (message : List Char)
deriving DecidableEq

/-- Result of a collaborator call inside the worker's try block: a
returned value or a raised exception with its message. -/
inductive WorkerStep where
  | val (b : Bool)
  | raised (msg : List Char)
deriving DecidableEq

/-- Environment of one session run of start_typing's worker: the
countdown length, the stop flag as observed at each countdown tick, the
target handle, and the outcomes of the activation call and of the
typing-loop call (either of which may raise). -/
structure WorkerEnv where
  countdown : Nat
  stopAt : Nat → Bool
  target_hwnd : Nat
  activateResult : WorkerStep
  typingResult : WorkerStep

/-- The worker's countdown loop over remaining = n..1: inl means the
stop flag was observed and the loop emitted the final on_done(false, "");
inr means the countdown ran to completion. -/
def countdownCalls (env : WorkerEnv) : Nat → List WorkerCall ⊕ List WorkerCall
  | 0 => .inr []
  | n + 1 =>
    if env.stopAt (n + 1) then .inl [.onDone false []]
    else
      match countdownCalls env n with
      | .inl rest => .inl (.onProgress (-1) ((n : Int) + 1) 0 0 :: rest)
      | .inr rest => .inr (.onProgress (-1) ((n : Int) + 1) 0 0 :: rest)

/-- Prefix of the error string built by the worker's except handler. -/
def errPrefix : List Char := "Error: ".toList

/-- Error message reported when target activation fails. -/
def activationErrMsg : List Char := "Could not activate target window".toList

/-- Model of start_typing's _worker body: the sequence of progress and
completion callbacks it performs, for a given environment.  Every branch
of the source body ends in exactly one on_done call; exceptions raised
by the activation or typing calls are caught by the except handler,
which reports them through on_done instead of letting them escape. -/
def workerModel (env : WorkerEnv) : List WorkerCall :=
  match countdownCalls env env.countdown with
  | .inl calls => calls
  | .inr calls =>
    calls ++
      match (if env.target_hwnd ≠ 0 then env.activateResult else .val true) with
      | .raised msg => [.onDone false (errPrefix ++ msg)]
      | .val false => [.onDone false activationErrMsg]
      | .val true =>
        match env.typingResult with
        | .raised msg => [.onDone false (errPrefix ++ msg)]
        | .val completed => [.onDone completed []]

def isDoneCall : WorkerCall → Bool
  | .onDone _ _ => true
  | .onProgress _ _ _ _ => false

/-- Whether the modelled worker stopped during the countdown. -/
def countdownStopped (env : WorkerEnv) : Bool :=
  match countdownCalls env env.countdown with
  | .inl _ => true
  | .inr _ => false

theorem countdownCalls_inl (env : WorkerEnv) :
    ∀ (n : Nat) (calls : List WorkerCall), countdownCalls env n = .inl calls →
      calls.countP (fun c => isDoneCall c) = 1 ∧ WorkerCall.onDone false [] ∈ calls := by
  intro n
  induction n with
  | zero => intro calls h; exact absurd h (by simp [countdownCalls])
  | succ n ih =>
    intro calls h
    rw [countdownCalls] at h
    split_ifs at h with hstop
    · injection h with h1
      subst h1
      constructor
      · simp [List.countP_cons, isDoneCall]
      · simp
    · rcases hrec : countdownCalls env n with rest | rest
      · rw [hrec] at h
        injection h with h1
        subst h1
        have hr := ih rest hrec
        constructor
        · rw [List.countP_cons, hr.1]
          simp [isDoneCall]
        · exact List.mem_cons_of_mem _ hr.2
      · rw [hrec] at h
        exact Sum.noConfusion h

theorem countdownCalls_inr (env : WorkerEnv) :
    ∀ (n : Nat) (calls : List WorkerCall), countdownCalls env n = .inr calls →
      calls.countP (fun c => isDoneCall c) = 0 := by
  intro n
  induction n with
  | zero =>
    intro calls h
    rw [countdownCalls] at h
    injection h with h1
    subst h1
    rfl
  | succ n ih =>
    intro calls h
    rw [countdownCalls] at h
    by_cases hstop : env.stopAt (n + 1) = true
    · rw [if_pos hstop] at h
      exact Sum.noConfusion h
    · rw [if_neg hstop] at h
      rcases hrec : countdownCalls env n with rest | rest
      · rw [hrec] at h
        exact Sum.noConfusion h
      · rw [hrec] at h
        injection h with h1
        subst h1
        rw [List.countP_cons, ih rest hrec]
        simp [isDoneCall]

/-- CLAIM C7: each worker session invokes the completion callback exactly
once, with (true, empty) on full delivery, (false, empty) on a stop
(either during the countdown or during typing), and (false, non-empty
message) when target activation fails or when the activation or typing
call raises; the model is total, reflecting that no exception escapes
the worker. -/
theorem worker_on_done_exactly_once (env : WorkerEnv) :
    (workerModel env).countP (fun c => isDoneCall c) = 1 ∧
    (countdownStopped env = true → WorkerCall.onDone false [] ∈ workerModel env) ∧
    (countdownStopped env = false →
      ((env.target_hwnd ≠ 0 ∧ env.activateResult = .val false) →
        WorkerCall.onDone false activationErrMsg ∈ workerModel env ∧
        activationErrMsg ≠ []) ∧
      (∀ msg, env.target_hwnd ≠ 0 → env.activateResult = .raised msg →
        WorkerCall.onDone false (errPrefix ++ msg) ∈ workerModel env ∧
        errPrefix ++ msg ≠ []) ∧
      ((env.target_hwnd = 0 ∨ env.activateResult = .val true) →
        (∀ msg, env.typingResult = .raised msg →
          WorkerCall.onDone false (errPrefix ++ msg) ∈ workerModel env ∧
          errPrefix ++ msg ≠ []) ∧
        (∀ c, env.typingResult = .val c →
          WorkerCall.onDone c [] ∈ workerModel env))) := by
  rcases hc : countdownCalls env env.countdown with calls | calls
  · have h1 := countdownCalls_inl env env.countdown calls hc
    have hwm : workerModel env = calls := by rw [workerModel, hc]
    have hcs : countdownStopped env = true := by rw [countdownStopped, hc]
    refine ⟨by rw [hwm]; exact h1.1, fun _ => by rw [hwm]; exact h1.2, fun hfalse => ?_⟩
    rw [hcs] at hfalse
    exact absurd hfalse (by simp)
  · have h0 := countdownCalls_inr env env.countdown calls hc
    have hcs : countdownStopped env = false := by rw [countdownStopped, hc]
    rcases hact : (if env.target_hwnd ≠ 0 then env.activateResult else .val true)
      with b | msg
    case val =>
      cases b with
      | false =>
        have hwm : workerModel env = calls ++ [.onDone false activationErrMsg] := by
          rw [workerModel, hc, hact]
        refine ⟨?_, ?_, fun _ => ⟨fun _ => ⟨by rw [hwm]; simp, by decide⟩, ?_, ?_⟩⟩
        · rw [hwm, List.countP_append, h0]
          rfl
        · intro habs
          rw [hcs] at habs
          exact absurd habs (by simp)
        · intro msg hhw hraised
          rw [if_pos hhw, hraised] at hact
          exact absurd hact (by simp)
        · intro hok
          rcases hok with hz | hv
          · rw [if_neg (by omega)] at hact
            exact absurd hact (by simp)
          · by_cases hhw : env.target_hwnd ≠ 0
            · rw [if_pos hhw, hv] at hact
              exact absurd hact (by simp)
            · rw [if_neg hhw] at hact
              exact absurd hact (by simp)
      | true =>
        rcases hty : env.typingResult with c | msg
        case val =>
          have hwm : workerModel env = calls ++ [.onDone c []] := by
            rw [workerModel, hc, hact, hty]
          refine ⟨?_, ?_, fun _ => ⟨?_, ?_, fun _ => ⟨?_, ?_⟩⟩⟩
          · rw [hwm, List.countP_append, h0]
            rfl
          · intro habs
            rw [hcs] at habs
            exact absurd habs (by simp)
          · intro hav
            rw [if_pos hav.1, hav.2] at hact
            exact absurd hact (by simp)
          · intro msg hhw hraised
            rw [if_pos hhw, hraised] at hact
            exact absurd hact (by simp)
          · intro msg hraised
            exact WorkerStep.noConfusion hraised
          · intro c' hval
            injection hval with he
            subst he
            rw [hwm]
            simp
        case raised =>
          have hwm : workerModel env = calls ++ [.onDone false (errPrefix ++ msg)] := by
            rw [workerModel, hc, hact, hty]
          refine ⟨?_, ?_, fun _ => ⟨?_, ?_, fun _ => ⟨?_, ?_⟩⟩⟩
          · rw [hwm, List.countP_append, h0]
            rfl
          · intro habs
            rw [hcs] at habs
            exact absurd habs (by simp)
          · intro hav
            rw [if_pos hav.1, hav.2] at hact
            exact absurd hact (by simp)
          · intro msg' hhw hraised
            rw [if_pos hhw, hraised] at hact
            exact absurd hact (by simp)
          · intro msg' hraised
            injection hraised with he
            subst he
            refine ⟨by rw [hwm]; simp, by simp [errPrefix]⟩
          · intro c' hval
            exact WorkerStep.noConfusion hval
    case raised =>
      have hwm : workerModel env = calls ++ [.onDone false (errPrefix ++ msg)] := by
        rw [workerModel, hc, hact]
      have hhw : env.target_hwnd ≠ 0 := by
        intro hz
        rw [if_neg (by omega)] at hact
        exact absurd hact (by simp)
      have hared : env.activateResult = .raised msg := by
        rw [if_pos hhw] at hact
        exact hact
      refine ⟨?_, ?_, fun _ => ⟨?_, ?_, ?_⟩⟩
      · rw [hwm, List.countP_append, h0]
        rfl
      · intro habs
        rw [hcs] at habs
        exact absurd habs (by simp)
      · intro hav
        rw [hav.2] at hared
        exact absurd hared (by simp)
      · intro msg' hhw' hraised
        rw [hraised] at hared
        injection hared with he
        subst he
        refine ⟨by rw [hwm]; simp, by simp [errPrefix]⟩
      · intro hok
        rcases hok with hz | hv
        · exact absurd hz hhw
        · rw [hv] at hared
          exact absurd hared (by simp)

/-- Concrete environment for the worker witness: two countdown ticks, no
stop, a nonzero target that activates, and a typing run that completes. -/
def testWorkerEnv : WorkerEnv :=
  ⟨2, fun _ => false, 1, .val true, .val true⟩

/-- Witness for C7: on a successful session the completion callback fires
exactly once, with (true, empty message). -/
theorem worker_on_done_exactly_once_witness :
    (workerModel testWorkerEnv).countP (fun c => isDoneCall c) = 1 ∧
    WorkerCall.onDone true [] ∈ workerModel testWorkerEnv :=
  ⟨(worker_on_done_exactly_once testWorkerEnv).1,
   (((worker_on_done_exactly_once testWorkerEnv).2.2 rfl).2.2 (Or.inr rfl)).2 true rfl⟩
